import Mathlib

/-!
A shallow embedding of the QR-code encoder vendored in this repository
(the `qrcodegen` namespace of the contract QR module, based on the Nayuki
generator): segment building, version and error-correction-level selection,
codeword assembly, Reed-Solomon error correction, matrix drawing and mask
selection, together with proofs of the specified properties.

Conventions of the embedding: JavaScript numbers are modelled as `Nat`
(or `Int` where a value can be negative in the source), bit buffers as
`List Nat` of 0/1 values, the module matrix as `List (List Bool)`, thrown
`RangeError` exceptions as `Except EncodeErr` results, and in-place
mutation as explicit state passing through folds.
-/

namespace TrustVault

/-- `RangeError "Data too long"` vs every other `RangeError` thrown by the
encoder (invalid version / mask / degree ranges, invalid characters handed
to a mode-specific packer). -/
inductive EncodeErr where
  | DataTooLong
  | InvalidArgument
deriving DecidableEq

/-- The bits of `val` over `len` positions, most significant first: the
loop body of the source helper `appendBits` (`for i = len-1 .. 0` push
`(val >>> i) & 1`). -/
def msbBits (val len : Nat) : List Nat :=
  (List.range len).map (fun i => (val >>> (len - 1 - i)) &&& 1)

/-- Source `appendBits(val, len, bb)`: push the bits of `val`, most
significant first, onto `bb`.  The source guard (`len ≤ 31` and
`val >>> len == 0`) never fires at any call site reached by the encoder,
so the embedding is total. -/
def appendBits (val len : Nat) (bb : List Nat) : List Nat :=
  bb ++ msbBits val len

/-- Source `getBit(x, i)`. -/
def getBit (x i : Nat) : Bool :=
  (x >>> i) &&& 1 == 1

/-- The error-correction level, `QrCode.Ecc` in the source. -/
inductive Ecc where
  | LOW
  | MEDIUM
  | QUARTILE
  | HIGH
deriving DecidableEq

/-- The `ordinal` field of each `Ecc` constant. -/
def Ecc.ordinal : Ecc → Nat
  | .LOW => 0
  | .MEDIUM => 1
  | .QUARTILE => 2
  | .HIGH => 3

/-- The `formatBits` field of each `Ecc` constant. -/
def Ecc.formatBits : Ecc → Nat
  | .LOW => 1
  | .MEDIUM => 0
  | .QUARTILE => 3
  | .HIGH => 2

/-- `QrCode.ECC_CODEWORDS_PER_BLOCK`, verbatim (index 0 is the `-1`
sentinel for the nonexistent version 0). -/
def ECC_CODEWORDS_PER_BLOCK : List (List Int) := [
  [-1,7,10,15,20,26,18,20,24,30,18,20,24,26,30,22,24,28,30,28,28,28,28,30,30,26,28,30,30,30,30,30,30,30,30,30,30,30,30,30,30],
  [-1,10,16,26,18,24,16,18,22,22,26,30,22,22,24,24,28,28,26,26,26,26,28,28,28,28,28,28,28,28,28,28,28,28,28,28,28,28,28,28,28],
  [-1,13,22,18,26,18,24,18,22,20,24,28,26,24,20,30,24,28,28,26,30,28,30,30,30,30,28,30,30,30,30,30,30,30,30,30,30,30,30,30,30],
  [-1,17,28,22,16,22,28,26,26,24,28,24,28,22,24,24,30,28,28,26,28,30,24,30,30,30,30,30,30,30,30,30,30,30,30,30,30,30,30,30,30]]

/-- `QrCode.NUM_ERROR_CORRECTION_BLOCKS`, verbatim. -/
def NUM_ERROR_CORRECTION_BLOCKS : List (List Int) := [
  [-1,1,1,1,1,1,2,2,2,2,4,4,4,4,4,6,6,6,6,7,8,8,9,9,10,12,12,12,13,14,15,16,17,18,19,19,20,21,22,24,25],
  [-1,1,1,1,2,2,4,4,4,5,5,5,8,9,9,10,10,11,13,14,16,17,17,18,20,21,23,25,26,28,29,31,33,35,37,38,40,43,45,47,49],
  [-1,1,1,2,2,4,4,6,6,8,8,8,10,12,16,12,17,16,18,21,20,23,23,25,27,29,34,34,35,38,40,43,45,48,51,53,56,59,62,65,68],
  [-1,1,1,2,4,4,4,5,6,8,8,11,11,16,16,18,16,19,21,25,25,25,34,30,32,35,37,40,42,45,48,51,54,57,60,63,66,70,74,77,81]]

/-- `ECC_CODEWORDS_PER_BLOCK[ecl.ordinal][ver]`. -/
def eccCodewordsPerBlock (ecl : Ecc) (ver : Nat) : Int :=
  (ECC_CODEWORDS_PER_BLOCK.getD ecl.ordinal []).getD ver 0

/-- `NUM_ERROR_CORRECTION_BLOCKS[ecl.ordinal][ver]`. -/
def numEccBlocks (ecl : Ecc) (ver : Nat) : Int :=
  (NUM_ERROR_CORRECTION_BLOCKS.getD ecl.ordinal []).getD ver 0

/-- Source `QrCode.getNumRawDataModules(ver)`.  The out-of-range throw is
dead inside the encoder (every caller passes a checked version in 1..40),
so the embedding keeps only the formula. -/
def getNumRawDataModules (ver : Nat) : Nat :=
  let base := (16 * ver + 128) * ver + 64
  if 2 ≤ ver then
    let numAlign := ver / 7 + 2
    let r := base - ((25 * numAlign - 10) * numAlign - 55)
    if 7 ≤ ver then r - 36 else r
  else base

/-- Source `QrCode.getNumDataCodewords(ver, ecl)`: raw codeword capacity
minus the error-correction codewords. -/
def getNumDataCodewords (ver : Nat) (ecl : Ecc) : Int :=
  ((getNumRawDataModules ver / 8 : Nat) : Int) -
    eccCodewordsPerBlock ecl ver * numEccBlocks ecl ver

/-- The segment mode, `QrSegment.Mode` in the source. -/
inductive Mode where
  | NUMERIC
  | ALPHANUMERIC
  | BYTE
  | KANJI
  | ECI
deriving DecidableEq

/-- The `modeBits` field of each mode constant. -/
def Mode.modeBits : Mode → Nat
  | .NUMERIC => 0x1
  | .ALPHANUMERIC => 0x2
  | .BYTE => 0x4
  | .KANJI => 0x8
  | .ECI => 0x7

/-- The `numBitsCharCount` triple of each mode constant. -/
def Mode.numBitsCharCount : Mode → List Nat
  | .NUMERIC => [10, 12, 14]
  | .ALPHANUMERIC => [9, 11, 13]
  | .BYTE => [8, 16, 16]
  | .KANJI => [8, 10, 12]
  | .ECI => [0, 0, 0]

/-- Source `Mode.numCharCountBits(ver)`:
`numBitsCharCount[floor((ver + 7) / 17)]`. -/
def Mode.numCharCountBits (m : Mode) (ver : Nat) : Nat :=
  m.numBitsCharCount.getD ((ver + 7) / 17) 0

/-- A data segment, `QrSegment` in the source: mode, character count and
the packed payload bits. -/
structure QrSegment where
  mode : Mode
  numChars : Nat
  bitData : List Nat
deriving DecidableEq

/-- Source `QrSegment.getTotalBits(segs, version)`: per segment
`4 + charCountBits + payload`, or `Infinity` (modelled as `none`) when a
character count does not fit its count field at this version. -/
def getTotalBits (segs : List QrSegment) (version : Nat) : Option Nat :=
  segs.foldl
    (fun acc seg =>
      match acc with
      | none => none
      | some r =>
        let ccbits := seg.mode.numCharCountBits version
        if (1 <<< ccbits) ≤ seg.numChars then none
        else some (r + 4 + ccbits + seg.bitData.length))
    (some 0)

/-- Decimal-digit test used by `NUMERIC_REGEX` (`^[0-9]*$`). -/
def isNumericChar (c : Char) : Bool :=
  48 ≤ c.toNat && c.toNat ≤ 57

/-- Source `QrSegment.isNumeric(text)`. -/
def isNumeric (text : List Char) : Bool :=
  text.all isNumericChar

/-- `ALPHANUMERIC_CHARSET`, verbatim. -/
def ALPHANUMERIC_CHARSET : List Char :=
  "0123456789ABCDEFGHIJKLMNOPQRSTUVWXYZ $%*+-./:".toList

/-- Source `QrSegment.isAlphanumeric(text)` (`^[A-Z0-9 $%*+./:-]*$`, the
same character set as `ALPHANUMERIC_CHARSET`). -/
def isAlphanumeric (text : List Char) : Bool :=
  text.all (fun c => ALPHANUMERIC_CHARSET.contains c)

/-- The numeric value of a digit character. -/
def digitVal (c : Char) : Nat :=
  c.toNat - 48

/-- The packing loop of `QrSegment.makeNumeric`: groups of 3 digits into
10 bits (`parseInt` of the group, i.e. its decimal value), a trailing pair
into 7 bits, a trailing single digit into 4 bits (`n * 3 + 1` bits for a
group of `n`). -/
def numericChunkBits : List Char → List Nat
  | c1 :: c2 :: c3 :: rest =>
      msbBits (digitVal c1 * 100 + digitVal c2 * 10 + digitVal c3) 10 ++
        numericChunkBits rest
  | [c1, c2] => msbBits (digitVal c1 * 10 + digitVal c2) 7
  | [c1] => msbBits (digitVal c1) 4
  | [] => []

/-- The segment `makeNumeric` builds once its validity check has passed. -/
def makeNumericCore (digits : List Char) : QrSegment :=
  { mode := .NUMERIC, numChars := digits.length, bitData := numericChunkBits digits }

/-- Source `QrSegment.makeNumeric(digits)`: throws `RangeError` on a
non-digit character, otherwise packs the digits in groups. -/
def makeNumeric (digits : List Char) : Except EncodeErr QrSegment :=
  if isNumeric digits then .ok (makeNumericCore digits)
  else .error .InvalidArgument

/-- The packing loop of `QrSegment.makeAlphanumeric`: pairs into 11 bits
as `index(c1) * 45 + index(c2)`, a trailing single character into 6 bits. -/
def alphanumericChunkBits : List Char → List Nat
  | c1 :: c2 :: rest =>
      msbBits (ALPHANUMERIC_CHARSET.indexOf c1 * 45 + ALPHANUMERIC_CHARSET.indexOf c2) 11 ++
        alphanumericChunkBits rest
  | [c1] => msbBits (ALPHANUMERIC_CHARSET.indexOf c1) 6
  | [] => []

/-- The segment `makeAlphanumeric` builds once its validity check has
passed. -/
def makeAlphanumericCore (text : List Char) : QrSegment :=
  { mode := .ALPHANUMERIC, numChars := text.length, bitData := alphanumericChunkBits text }

/-- Source `QrSegment.makeAlphanumeric(text)`: throws `RangeError` on a
character outside the 45-character alphabet. -/
def makeAlphanumeric (text : List Char) : Except EncodeErr QrSegment :=
  if isAlphanumeric text then .ok (makeAlphanumericCore text)
  else .error .InvalidArgument

/-- Source `QrSegment.makeBytes(data)`: each byte packed as 8 bits. -/
def makeBytes (data : List Nat) : QrSegment :=
  { mode := .BYTE, numChars := data.length,
    bitData := data.foldl (fun bb b => appendBits b 8 bb) [] }

/-- The UTF-8 bytes of one character.  Source `toUtf8ByteArray` routes the
text through `encodeURI` and reads the escapes back; on every valid string
that equals the standard UTF-8 encoding, modelled here directly. -/
def utf8BytesOfChar (c : Char) : List Nat :=
  let n := c.toNat
  if n < 0x80 then [n]
  else if n < 0x800 then [0xC0 ||| (n >>> 6), 0x80 ||| (n &&& 0x3F)]
  else if n < 0x10000 then
    [0xE0 ||| (n >>> 12), 0x80 ||| ((n >>> 6) &&& 0x3F), 0x80 ||| (n &&& 0x3F)]
  else
    [0xF0 ||| (n >>> 18), 0x80 ||| ((n >>> 12) &&& 0x3F),
      0x80 ||| ((n >>> 6) &&& 0x3F), 0x80 ||| (n &&& 0x3F)]

/-- Source `QrSegment.toUtf8ByteArray(str)`. -/
def toUtf8ByteArray (text : List Char) : List Nat :=
  (text.map utf8BytesOfChar).flatten

/-- Source `QrSegment.makeSegments(text)`: empty list for empty text, one
numeric, alphanumeric or byte segment otherwise.  The mode checks precede
the packers, so the packer validity throws are dead here. -/
def makeSegments (text : List Char) : List QrSegment :=
  if text = [] then []
  else if isNumeric text then [makeNumericCore text]
  else if isAlphanumeric text then [makeAlphanumericCore text]
  else [makeBytes (toUtf8ByteArray text)]

/-- The version-search loop of `QrCode.encodeSegments` (lines 30-35):
starting at `version`, return the first version whose data capacity in
bits at `ecl` is at least the total segment bits, or `DataTooLong` once
`maxVersion` is reached without a fit. -/
def selectVersion (segs : List QrSegment) (ecl : Ecc) (version maxVersion : Nat) :
    Except EncodeErr (Nat × Nat) :=
  let dataCapacityBits : Int := getNumDataCodewords version ecl * 8
  match getTotalBits segs version with
  | some usedBits =>
    if (usedBits : Int) ≤ dataCapacityBits then .ok (version, usedBits)
    else if maxVersion ≤ version then .error .DataTooLong
    else selectVersion segs ecl (version + 1) maxVersion
  | none =>
    if maxVersion ≤ version then .error .DataTooLong
    else selectVersion segs ecl (version + 1) maxVersion
termination_by maxVersion - version
decreasing_by
  all_goals omega

/-- The fit test of the version-search loop, as a single boolean:
`getTotalBits segs v` is finite and at most the data capacity in bits of
version `v` at level `ecl`. -/
def fitsVersion (segs : List QrSegment) (ecl : Ecc) (v : Nat) : Bool :=
  match getTotalBits segs v with
  | some usedBits => decide ((usedBits : Int) ≤ getNumDataCodewords v ecl * 8)
  | none => false

/-- The boost loop of `QrCode.encodeSegments` (lines 37-39): raise the
level through MEDIUM, QUARTILE, HIGH, keeping a candidate only when the
already-computed bit total still fits the same version at that level. -/
def boostEclLevel (boostEcl : Bool) (dataUsedBits version : Nat) (ecl : Ecc) : Ecc :=
  [Ecc.MEDIUM, Ecc.QUARTILE, Ecc.HIGH].foldl
    (fun e newEcl =>
      if boostEcl ∧ (dataUsedBits : Int) ≤ getNumDataCodewords version newEcl * 8
      then newEcl else e)
    ecl

/-- The segment-concatenation loop of `QrCode.encodeSegments` (lines
42-46): per segment, the 4 mode bits, the character-count field at the
chosen version, then the payload bits. -/
def segsBits (version : Nat) (segs : List QrSegment) : List Nat :=
  segs.foldl
    (fun bb seg =>
      appendBits seg.numChars (seg.mode.numCharCountBits version)
        (appendBits seg.mode.modeBits 4 bb) ++ seg.bitData)
    []

/-- The pad-byte loop of `QrCode.encodeSegments` (line 51): append whole
bytes, toggling between `0xEC` and `0x11`, while the bit length is below
`dataCapacityBits`. -/
def padLoop (padByte : Nat) (bb : List Nat) (dataCapacityBits : Nat) : List Nat :=
  if bb.length < dataCapacityBits then
    padLoop (padByte ^^^ (0xEC ^^^ 0x11)) (appendBits padByte 8 bb) dataCapacityBits
  else bb
termination_by dataCapacityBits - bb.length
decreasing_by
  simp [appendBits, msbBits]
  omega

/-- One step of the bit-packing loop of `QrCode.encodeSegments` (line 54):
`dataCodewords[i >>> 3] |= b << (7 - (i & 7))`. -/
def packStep (arr : List Nat) (ib : Nat × Nat) : List Nat :=
  arr.set (ib.1 / 8) (arr.getD (ib.1 / 8) 0 ||| (ib.2 <<< (7 - ib.1 % 8)))

/-- The bit-packing of `QrCode.encodeSegments` (lines 53-54): an array of
`ceil(len / 8)` zero bytes, then each bit ORed into its byte, most
significant bit first. -/
def packBytes (bb : List Nat) : List Nat :=
  bb.enum.foldl packStep (List.replicate ((bb.length + 7) / 8) 0)

/-- The multiplication loop of `QrCode.reedSolomonMultiply` (the part
after its byte-range guard): GF(256) product by 8 steps of doubling with
reduction by 0x11D, adding `x` where `y` has a 1 bit. -/
def reedSolomonMultiplyLoop (x y : Nat) : Nat :=
  (List.range 8).foldl
    (fun z i =>
      let z2 := (z <<< 1) ^^^ ((z >>> 7) * 0x11D)
      z2 ^^^ (((y >>> (7 - i)) &&& 1) * x))
    0

/-- Source `QrCode.reedSolomonMultiply(x, y)`: an argument with bits
above the low byte throws `RangeError("Byte out of range")`; otherwise
the GF(256) product. -/
def reedSolomonMultiply (x y : Nat) : Except EncodeErr Nat :=
  if x >>> 8 ≠ 0 ∨ y >>> 8 ≠ 0 then .error .InvalidArgument
  else .ok (reedSolomonMultiplyLoop x y)

/-- One pass of the divisor-building loop of
`QrCode.reedSolomonComputeDivisor`: in place, `result[j]` becomes
`multiply(result[j], root)`, XORed with the not-yet-updated `result[j+1]`
when it exists; a byte-range throw inside `multiply` aborts the pass. -/
def rsDivisorPass (root : Nat) : List Nat → Except EncodeErr (List Nat)
  | [] => .ok []
  | [a] =>
    match reedSolomonMultiply a root with
    | .error e => .error e
    | .ok m => .ok [m]
  | a :: b :: rest =>
    match reedSolomonMultiply a root with
    | .error e => .error e
    | .ok m =>
      match rsDivisorPass root (b :: rest) with
      | .error e => .error e
      | .ok tail => .ok ((m ^^^ b) :: tail)

/-- One iteration of the outer loop of `QrCode.reedSolomonComputeDivisor`
(the loop counter is unused by the body): one divisor pass over `result`,
then the root doubles in GF(256). -/
def rsDivisorStep (st : Except EncodeErr (List Nat × Nat)) (_ : Nat) :
    Except EncodeErr (List Nat × Nat) :=
  match st with
  | .error e => .error e
  | .ok st =>
    match rsDivisorPass st.2 st.1 with
    | .error e => .error e
    | .ok result =>
      match reedSolomonMultiply st.2 0x02 with
      | .error e => .error e
      | .ok root2 => .ok (result, root2)

/-- Source `QrCode.reedSolomonComputeDivisor(degree)`: degree outside
1..255 throws; otherwise start from the coefficient list `[0, ..., 0, 1]`
and multiply by `(x - r^i)` for each of the `degree` roots, the root
doubling in GF(256) each iteration. -/
def reedSolomonComputeDivisor (degree : Nat) : Except EncodeErr (List Nat) :=
  if degree < 1 ∨ 255 < degree then .error .InvalidArgument
  else
    match (List.range degree).foldl rsDivisorStep
      (.ok (List.replicate (degree - 1) 0 ++ [1], 1)) with
    | .error e => .error e
    | .ok st => .ok st.1

/-- The inner scaling loop of `QrCode.reedSolomonComputeRemainder`
(`divisor.forEach((coef, i) => result[i] ^= multiply(coef, factor))`),
over the aligned pairs of divisor coefficient and shifted-remainder cell;
a byte-range throw inside `multiply` aborts the loop. -/
def rsScaleLoop (factor : Nat) : List Nat → List Nat → Except EncodeErr (List Nat)
  | [], _ => .ok []
  | _ :: _, [] => .ok []
  | coef :: ds, r :: rs =>
    match reedSolomonMultiply coef factor with
    | .error e => .error e
    | .ok m =>
      match rsScaleLoop factor ds rs with
      | .error e => .error e
      | .ok rest => .ok ((r ^^^ m) :: rest)

/-- One data byte of `QrCode.reedSolomonComputeRemainder`: shift the
accumulator (`result.shift()` then `result.push(0)`) and XOR in the
divisor scaled by the leading factor. -/
def rsRemainderStep (divisor : List Nat) (res : Except EncodeErr (List Nat))
    (b : Nat) : Except EncodeErr (List Nat) :=
  match res with
  | .error e => .error e
  | .ok result => rsScaleLoop (b ^^^ result.headD 0) divisor (result.tail ++ [0])

/-- Source `QrCode.reedSolomonComputeRemainder(data, divisor)`: polynomial
long division, one `rsRemainderStep` per data byte. -/
def reedSolomonComputeRemainder (data divisor : List Nat) :
    Except EncodeErr (List Nat) :=
  data.foldl (rsRemainderStep divisor) (.ok (divisor.map (fun _ => 0)))

/-- The matrix under construction: the module grid and the parallel
is-function overlay, both `size × size`. -/
structure Grid where
  modules : List (List Bool)
  isFunc : List (List Bool)
deriving DecidableEq

/-- Write one cell of a row-major boolean matrix (out-of-range writes do
not occur in the source; `List.set` makes them no-ops). -/
def setAt (g : List (List Bool)) (x y : Nat) (v : Bool) : List (List Bool) :=
  g.set y ((g.getD y []).set x v)

/-- Read one cell of a row-major boolean matrix. -/
def getAt (g : List (List Bool)) (x y : Nat) : Bool :=
  (g.getD y []).getD x false

/-- Source `setFunctionModule(x, y, isDark)`: set the module and mark it
as a function module. -/
def setFunctionModule (g : Grid) (x y : Nat) (isDark : Bool) : Grid :=
  { modules := setAt g.modules x y isDark, isFunc := setAt g.isFunc x y true }

/-- The timing-pattern loop of `drawFunctionPatterns` (line 78). -/
def drawTimingPatterns (size : Nat) (g : Grid) : Grid :=
  (List.range size).foldl
    (fun g i =>
      setFunctionModule (setFunctionModule g 6 i (decide (i % 2 = 0))) i 6 (decide (i % 2 = 0)))
    g

/-- Source `drawFinderPattern(x, y)`: 9×9 neighbourhood around the centre,
dark except at Chebyshev distance 2 and 4, clipped to the matrix. -/
def drawFinderPattern (size : Nat) (x y : Int) (g : Grid) : Grid :=
  (List.range 9).foldl
    (fun g dy9 =>
      (List.range 9).foldl
        (fun g dx9 =>
          let dx : Int := (dx9 : Int) - 4
          let dy : Int := (dy9 : Int) - 4
          let dist : Int := max (Int.natAbs dx) (Int.natAbs dy)
          let xx : Int := x + dx
          let yy : Int := y + dy
          if 0 ≤ xx ∧ xx < (size : Int) ∧ 0 ≤ yy ∧ yy < (size : Int) then
            setFunctionModule g xx.toNat yy.toNat (decide (dist ≠ 2 ∧ dist ≠ 4))
          else g)
        g)
    g

/-- Source `drawAlignmentPattern(x, y)`: 5×5 block, dark except the ring
at Chebyshev distance 1. -/
def drawAlignmentPattern (x y : Nat) (g : Grid) : Grid :=
  (List.range 5).foldl
    (fun g (dy5 : Nat) =>
      (List.range 5).foldl
        (fun g (dx5 : Nat) =>
          let dist := max (Int.natAbs ((dx5 : Int) - 2)) (Int.natAbs ((dy5 : Int) - 2))
          setFunctionModule g (x + dx5 - 2) (y + dy5 - 2) (decide (dist ≠ 1)))
        g)
    g

/-- The insertion loop of `getAlignmentPatternPositions`: `numAlign - 1`
iterations of `result.splice(1, 0, pos)` with `pos` stepping down. -/
def alignPosLoop (fuel pos step : Nat) (result : List Nat) : List Nat :=
  match fuel with
  | 0 => result
  | f + 1 =>
    alignPosLoop f (pos - step) step
      (match result with
       | a :: rest => a :: pos :: rest
       | [] => [pos])

/-- Source `QrCode.getAlignmentPatternPositions(ver)`: empty for version
1, else `floor(ver / 7) + 2` positions starting at 6, the rest stepping
down from `ver * 4 + 10`. -/
def getAlignmentPatternPositions (ver : Nat) : List Nat :=
  if ver = 1 then []
  else
    let numAlign := ver / 7 + 2
    let step := ((ver * 8 + numAlign * 3 + 5) / (numAlign * 4 - 4)) * 2
    alignPosLoop (numAlign - 1) (ver * 4 + 10) step [6]

/-- Source `drawFormatBits(mask)`: 5 data bits (format bits of the level
and the mask index), 10 BCH remainder bits, XORed with 0x5412, written as
two copies at their fixed positions plus the always-dark module. -/
def drawFormatBits (size : Nat) (ecl : Ecc) (mask : Nat) (g : Grid) : Grid :=
  let data := ecl.formatBits <<< 3 ||| mask
  let rem := (List.range 10).foldl (fun rem _ => (rem <<< 1) ^^^ ((rem >>> 9) * 0x537)) data
  let bits := (data <<< 10 ||| rem) ^^^ 0x5412
  let g := (List.range 6).foldl (fun g i => setFunctionModule g 8 i (getBit bits i)) g
  let g := setFunctionModule g 8 7 (getBit bits 6)
  let g := setFunctionModule g 8 8 (getBit bits 7)
  let g := setFunctionModule g 7 8 (getBit bits 8)
  let g := (List.range 6).foldl (fun g k => setFunctionModule g (14 - (k + 9)) 8 (getBit bits (k + 9))) g
  let g := (List.range 8).foldl (fun g i => setFunctionModule g (size - 1 - i) 8 (getBit bits i)) g
  let g := (List.range 7).foldl (fun g k => setFunctionModule g 8 (size - 15 + (k + 8)) (getBit bits (k + 8))) g
  setFunctionModule g 8 (size - 8) true

/-- Source `drawVersion()`: nothing below version 7; otherwise 12 BCH
remainder bits under the 6 version bits, written as two mirrored 18-bit
copies next to the finder patterns. -/
def drawVersion (size ver : Nat) (g : Grid) : Grid :=
  if ver < 7 then g
  else
    let rem := (List.range 12).foldl (fun rem _ => (rem <<< 1) ^^^ ((rem >>> 11) * 0x1F25)) ver
    let bits := ver <<< 12 ||| rem
    (List.range 18).foldl
      (fun g i =>
        let color := getBit bits i
        let a := size - 11 + i % 3
        let b := i / 3
        setFunctionModule (setFunctionModule g a b color) b a color)
      g

/-- Source `drawFunctionPatterns()`: timing patterns, the three finder
patterns, the alignment patterns away from the three finder corners,
provisional format bits for mask 0, and the version information. -/
def drawFunctionPatterns (size ver : Nat) (ecl : Ecc) (g : Grid) : Grid :=
  let g := drawTimingPatterns size g
  let g := drawFinderPattern size 3 3 g
  let g := drawFinderPattern size ((size : Int) - 4) 3 g
  let g := drawFinderPattern size 3 ((size : Int) - 4) g
  let alignPatPos := getAlignmentPatternPositions ver
  let numAlign := alignPatPos.length
  let g := (List.range numAlign).foldl
    (fun g i =>
      (List.range numAlign).foldl
        (fun g j =>
          if (i = 0 ∧ j = 0) ∨ (i = 0 ∧ j = numAlign - 1) ∨ (i = numAlign - 1 ∧ j = 0)
          then g
          else drawAlignmentPattern (alignPatPos.getD i 0) (alignPatPos.getD j 0) g)
        g)
    g
  drawVersion size ver (drawFormatBits size ecl 0 g)

/-- `QrCode.PENALTY_N1`. -/
def PENALTY_N1 : Int := 3

/-- `QrCode.PENALTY_N2`. -/
def PENALTY_N2 : Int := 3

/-- `QrCode.PENALTY_N3`. -/
def PENALTY_N3 : Int := 40

/-- `QrCode.PENALTY_N4`. -/
def PENALTY_N4 : Int := 10

/-- The right-column sequence of the zigzag scan in `drawCodewords`:
`size - 1` stepping down by 2, with the step from 6 replaced by 5 to skip
the vertical timing column. -/
def zigzagRights (r : Nat) : List Nat :=
  if 1 ≤ r then
    let r2 := if r = 6 then 5 else r
    r2 :: zigzagRights (r2 - 2)
  else []
termination_by r
decreasing_by
  split <;> omega

/-- Source `drawCodewords(data)`: length guard, then the boustrophedon
scan over two-column bands placing one data bit (most significant first
within each codeword) into every non-function module while bits remain. -/
def drawCodewords (size ver : Nat) (data : List Nat) (g : Grid) : Except EncodeErr Grid :=
  if data.length ≠ getNumRawDataModules ver / 8 then .error .InvalidArgument
  else
    .ok ((zigzagRights (size - 1)).foldl
      (fun st right =>
        (List.range size).foldl
          (fun st vert =>
            (List.range 2).foldl
              (fun (st : Grid × Nat) j =>
                let g := st.1
                let i := st.2
                let x := right - j
                let upward := ((right + 1) &&& 2) = 0
                let y := if upward then size - 1 - vert else vert
                if getAt g.isFunc x y = false ∧ i < data.length * 8 then
                  let bit := getBit (data.getD (i >>> 3) 0) (7 - (i &&& 7))
                  ({ g with modules := setAt g.modules x y bit }, i + 1)
                else st)
              st)
          st)
      (g, 0)).1

/-- The eight mask formulas of `applyMask` (the `default` case of the
source switch is unreachable and modelled as no inversion). -/
def maskInvert (mask x y : Nat) : Bool :=
  match mask with
  | 0 => decide ((x + y) % 2 = 0)
  | 1 => decide (y % 2 = 0)
  | 2 => decide (x % 3 = 0)
  | 3 => decide ((x + y) % 3 = 0)
  | 4 => decide ((x / 3 + y / 2) % 2 = 0)
  | 5 => decide (x * y % 2 + x * y % 3 = 0)
  | 6 => decide ((x * y % 2 + x * y % 3) % 2 = 0)
  | 7 => decide (((x + y) % 2 + x * y % 3) % 2 = 0)
  | _ => false

/-- Source `applyMask(mask)` without its range guard (each call, from the
search loop and from the guarded final application, passes an index in
0..7): XOR every non-function module with the mask formula. -/
def applyMaskGrid (size mask : Nat) (g : Grid) : Grid :=
  (List.range size).foldl
    (fun g y =>
      (List.range size).foldl
        (fun g x =>
          if getAt g.isFunc x y = false ∧ maskInvert mask x y then
            { g with modules := setAt g.modules x y (!(getAt g.modules x y)) }
          else g)
        g)
    g

/-- Source `finderPenaltyAddHistory`: the vendored copy shifts only cells
0..4 of the 7-cell history (cells 5 and 6 are never written), adding
`size` to the first run when the history is untouched. -/
def finderPenaltyAddHistory (size runLen : Nat) (h : List Nat) : List Nat :=
  let len := if h.getD 0 0 = 0 then runLen + size else runLen
  [len, h.getD 0 0, h.getD 1 0, h.getD 2 0, h.getD 3 0, h.getD 5 0, h.getD 6 0]

/-- Source `finderPenaltyCountPatterns` (its internal assertion never
fires on histories the scan builds and is not modelled): up to two
occurrences of the 1:1:3:1:1 pattern around the core run. -/
def finderPenaltyCountPatterns (h : List Nat) : Nat :=
  let n := h.getD 1 0
  let core : Bool := decide (0 < n) && decide (h.getD 2 0 = n) && decide (h.getD 3 0 = n * 3)
    && decide (h.getD 4 0 = n) && decide (h.getD 5 0 = n)
  (if core && decide (h.getD 0 0 = n) then 1 else 0) +
    (if core && decide (h.getD 6 0 = n) then 1 else 0)

/-- Source `finderPenaltyTerminateAndCount`. -/
def finderPenaltyTerminateAndCount (size : Nat) (runColor : Bool) (runLen : Nat)
    (h : List Nat) : Nat :=
  let st := if runColor then (0, finderPenaltyAddHistory size runLen h) else (runLen, h)
  finderPenaltyCountPatterns (finderPenaltyAddHistory size (st.1 + size) st.2)

/-- The per-line scan state of `getPenaltyScore`: current run colour and
length, the run history, and the accumulated penalty. -/
structure RunScan where
  runColor : Bool
  runLen : Nat
  history : List Nat
  acc : Int
deriving DecidableEq

/-- One cell of the rule-1 / rule-3 line scan of `getPenaltyScore`. -/
def lineStep (size : Nat) (st : RunScan) (c : Bool) : RunScan :=
  if c = st.runColor then
    let rl := st.runLen + 1
    let acc2 := st.acc + (if rl = 5 then PENALTY_N1 else if 5 < rl then 1 else 0)
    { st with runLen := rl, acc := acc2 }
  else
    let h := finderPenaltyAddHistory size st.runLen st.history
    let acc :=
      if st.runColor = false then st.acc + (finderPenaltyCountPatterns h : Int) * PENALTY_N3
      else st.acc
    { runColor := c, runLen := 1, history := h, acc := acc }

/-- One full line (row or column) of the rule-1 / rule-3 scan, reading
cells through `cell`. -/
def linePenalty (size : Nat) (cell : Nat → Bool) : Int :=
  let st := (List.range size).foldl (fun st idx => lineStep size st (cell idx))
    { runColor := false, runLen := 0, history := [0, 0, 0, 0, 0, 0, 0], acc := 0 }
  st.acc + (finderPenaltyTerminateAndCount size st.runColor st.runLen st.history : Int) * PENALTY_N3

/-- The dark-module count of `getPenaltyScore` (rule 4):
`row.reduce` over every row of the matrix. -/
def darkCount (modules : List (List Bool)) : Nat :=
  modules.foldl (fun dark row => row.foldl (fun s c => s + if c then 1 else 0) dark) 0

/-- The rule-4 term of `getPenaltyScore`:
`k = ceil(abs(dark * 20 - total * 10) / total) - 1`, then `k * PENALTY_N4`
(for naturals, `ceil(a / t) = (a + t - 1) / t`). -/
def rule4Term (size : Nat) (modules : List (List Bool)) : Int :=
  let dark := darkCount modules
  let total := size * size
  let k : Int :=
    ((((20 * (dark : Int) - 10 * (total : Int)).natAbs + total - 1) / total : Nat) : Int) - 1
  k * PENALTY_N4

/-- Source `getPenaltyScore()`: rule 1 and rule 3 over rows and columns,
rule 2 over 2×2 blocks, rule 4 over the dark-module balance. -/
def getPenaltyScore (size : Nat) (modules : List (List Bool)) : Int :=
  let rows := (List.range size).foldl
    (fun acc y => acc + linePenalty size (fun x => getAt modules x y)) 0
  let cols := (List.range size).foldl
    (fun acc x => acc + linePenalty size (fun y => getAt modules x y)) 0
  let blocks := (List.range (size - 1)).foldl
    (fun acc y =>
      (List.range (size - 1)).foldl
        (fun acc x =>
          let c := getAt modules x y
          if c = getAt modules (x + 1) y ∧ c = getAt modules x (y + 1) ∧
              c = getAt modules (x + 1) (y + 1)
          then acc + PENALTY_N2 else acc)
        acc)
    0
  rows + cols + blocks + rule4Term size modules

/-- One candidate of the automatic mask search (constructor line 71):
apply mask `i`, draw its format bits, score it, keep it when strictly
better, then apply mask `i` again to undo it. -/
def maskSearchStep (pen : List (List Bool) → Int) (size : Nat) (ecl : Ecc)
    (st : Int × Int × Grid) (i : Nat) : Int × Int × Grid :=
  let g := drawFormatBits size ecl i (applyMaskGrid size i st.2.2)
  let p := pen g.modules
  let best : Int × Int := if p < st.2.1 then ((i : Int), p) else (st.1, st.2.1)
  (best.1, best.2, applyMaskGrid size i g)

/-- The automatic mask search over indices 0..7, starting from
`msk = -1`, `minPenalty = 1e9`. -/
def maskSearch (pen : List (List Bool) → Int) (size : Nat) (ecl : Ecc)
    (g : Grid) : Int × Int × Grid :=
  (List.range 8).foldl (maskSearchStep pen size ecl) (-1, 1000000000, g)

/-- One iteration of the mask search, tracking only the evolving grid and
the penalty scores seen so far. -/
def searchPensStep (pen : List (List Bool) → Int) (size : Nat) (ecl : Ecc)
    (st : Grid × List Int) (i : Nat) : Grid × List Int :=
  let gb := drawFormatBits size ecl i (applyMaskGrid size i st.1)
  (applyMaskGrid size i gb, st.2 ++ [pen gb.modules])

/-- The penalty score each iteration of the mask search computes, in
search order (mask index 0..7). -/
def searchPens (pen : List (List Bool) → Int) (size : Nat) (ecl : Ecc)
    (g : Grid) : List Int :=
  ((List.range 8).foldl (searchPensStep pen size ecl) (g, [])).2

/-- One iteration of the block-splitting loop of `addEccAndInterleave`:
take the next short or long data block, compute its Reed-Solomon
remainder, pad a short block with one zero cell, and advance the read
offset; a byte-range throw inside the remainder computation aborts the
loop. -/
def eccBlockStep (data rsDiv : List Nat) (ns sbl eccLen : Nat)
    (st : Except EncodeErr (List (List Nat) × Nat)) (i : Nat) :
    Except EncodeErr (List (List Nat) × Nat) :=
  match st with
  | .error e => .error e
  | .ok st =>
    let datLen := sbl - eccLen + (if i < ns then 0 else 1)
    let dat := (data.drop st.2).take datLen
    match reedSolomonComputeRemainder dat rsDiv with
    | .error e => .error e
    | .ok ecc =>
      let dat2 := if i < ns then dat ++ [0] else dat
      .ok (st.1 ++ [dat2 ++ ecc], st.2 + dat.length)

/-- One iteration of the interleaving loop of `addEccAndInterleave`:
append cell `i` of every block, skipping the padding cell of the short
blocks. -/
def interleaveStep (blocks : List (List Nat)) (padIdx ns : Nat)
    (result : List Nat) (i : Nat) : List Nat :=
  result ++ blocks.enum.filterMap
    (fun jb => if i ≠ padIdx ∨ ns ≤ jb.1 then some (jb.2.getD i 0) else none)

/-- Source `addEccAndInterleave(data)`: length guard, block split with
short blocks first, per-block Reed-Solomon remainder, zero padding of the
short blocks, then column-major interleave that skips the padding cell. -/
def addEccAndInterleave (ver : Nat) (ecl : Ecc) (data : List Nat) :
    Except EncodeErr (List Nat) :=
  if (data.length : Int) ≠ getNumDataCodewords ver ecl then .error .InvalidArgument
  else
    let numBlocks := (numEccBlocks ecl ver).toNat
    let blockEccLen := (eccCodewordsPerBlock ecl ver).toNat
    let rawCodewords := getNumRawDataModules ver / 8
    let numShortBlocks := numBlocks - rawCodewords % numBlocks
    let shortBlockLen := rawCodewords / numBlocks
    match reedSolomonComputeDivisor blockEccLen with
    | .error e => .error e
    | .ok rsDiv =>
      match (List.range numBlocks).foldl
          (eccBlockStep data rsDiv numShortBlocks shortBlockLen blockEccLen)
          (.ok ([], 0)) with
      | .error e => .error e
      | .ok st =>
        .ok ((List.range ((st.1.headD []).length)).foldl
          (interleaveStep st.1 (shortBlockLen - blockEccLen) numShortBlocks) [])

/-- The immutable result of one encode call: version, level, size, the
chosen mask index and the final module grid. -/
structure QrSymbol where
  version : Nat
  errorCorrectionLevel : Ecc
  size : Nat
  mask : Int
  modules : List (List Bool)
deriving DecidableEq

/-- The all-light `size × size` matrix and overlay the constructor
allocates (lines 66-67). -/
def initialGrid (size : Nat) : Grid :=
  { modules := List.replicate size (List.replicate size false),
    isFunc := List.replicate size (List.replicate size false) }

/-- The mask-independent prefix of the constructor: function patterns,
error-correction codewords, codeword placement. -/
def baseMatrix (version : Nat) (ecl : Ecc) (dataCodewords : List Nat) :
    Except EncodeErr Grid :=
  let size := version * 4 + 17
  let g := drawFunctionPatterns size version ecl (initialGrid size)
  match addEccAndInterleave version ecl dataCodewords with
  | .error e => .error e
  | .ok allCodewords => drawCodewords size version allCodewords g

/-- The `QrCode` constructor, parameterised by the penalty function the
automatic mask search consults (the encoder instantiates it with
`getPenaltyScore`): range guards, matrix building, mask selection (the
search only when `msk = -1`), final mask application and format bits. -/
def constructWith (pen : List (List Bool) → Int) (version : Nat) (ecl : Ecc)
    (dataCodewords : List Nat) (msk : Int) : Except EncodeErr QrSymbol :=
  if version < 1 ∨ 40 < version then .error .InvalidArgument
  else if msk < -1 ∨ 7 < msk then .error .InvalidArgument
  else
    let size := version * 4 + 17
    match baseMatrix version ecl dataCodewords with
    | .error e => .error e
    | .ok g =>
      let st : Int × Grid :=
        if msk = -1 then
          let r := maskSearch pen size ecl g
          (r.1, r.2.2)
        else (msk, g)
      if st.1 < 0 ∨ 7 < st.1 then .error .InvalidArgument
      else
        let g3 := drawFormatBits size ecl st.1.toNat (applyMaskGrid size st.1.toNat st.2)
        .ok { version := version, errorCorrectionLevel := ecl, size := size,
              mask := st.1, modules := g3.modules }

/-- The `QrCode` constructor with the penalty function of the source. -/
def construct (version : Nat) (ecl : Ecc) (dataCodewords : List Nat) (msk : Int) :
    Except EncodeErr QrSymbol :=
  constructWith (getPenaltyScore (version * 4 + 17)) version ecl dataCodewords msk

/-- Source `getModule(x, y)`: the stored module inside the matrix, false
outside it, never an error. -/
def getModule (q : QrSymbol) (x y : Int) : Bool :=
  decide (0 ≤ x) && decide (x < (q.size : Int)) && decide (0 ≤ y) &&
    decide (y < (q.size : Int)) && getAt q.modules x.toNat y.toNat

/-- The bit assembly of `QrCode.encodeSegments` (lines 41-55) once the
version and the final level are fixed: segment bits, a terminator of
`min(4, remaining)` zero bits, zero bits to the next byte boundary, then
pad bytes while below the data capacity in bits. -/
def assembledBits (segs : List QrSegment) (version : Nat) (ecl2 : Ecc) : List Nat :=
  let bb0 := segsBits version segs
  let dataCapacityBits : Nat := (getNumDataCodewords version ecl2 * 8).toNat
  let bb1 := appendBits 0 (min 4 (dataCapacityBits - bb0.length)) bb0
  let bb2 := appendBits 0 ((8 - bb1.length % 8) % 8) bb1
  padLoop 0xEC bb2 dataCapacityBits

/-- Source `QrCode.encodeSegments(segs, ecl, minVersion, maxVersion,
mask, boostEcl)`: argument guard, version search, level boost, bit
assembly (terminator, byte alignment, pad bytes), byte packing, then the
constructor. -/
def encodeSegments (segs : List QrSegment) (ecl : Ecc) (minVersion maxVersion : Nat)
    (mask : Int) (boostEcl : Bool) : Except EncodeErr QrSymbol :=
  if ¬(1 ≤ minVersion ∧ minVersion ≤ maxVersion ∧ maxVersion ≤ 40) ∨ mask < -1 ∨ 7 < mask
  then .error .InvalidArgument
  else
    match selectVersion segs ecl minVersion maxVersion with
    | .error e => .error e
    | .ok (version, dataUsedBits) =>
      let ecl2 := boostEclLevel boostEcl dataUsedBits version ecl
      construct version ecl2 (packBytes (assembledBits segs version ecl2)) mask

/-- Source `QrCode.encodeText(text, ecl)` with the default optional
arguments of `encodeSegments` (minVersion 1, maxVersion 40, automatic
mask, boost enabled). -/
def encodeText (text : List Char) (ecl : Ecc) : Except EncodeErr QrSymbol :=
  encodeSegments (makeSegments text) ecl 1 40 (-1) true

/-! ### Definitions written from the specification words (for refinement
claims), and helper definitions used only to state and prove theorems. -/

/-- The rule-4 step count as the specification words it: the absolute
percentage deviation of the dark-module count from 50% of all modules,
divided by the 5% step width, rounded down
(`|dark / total - 1/2| * 100 / 5 = |20 * dark - 10 * total| / total`). -/
def specRule4Steps (size : Nat) (modules : List (List Bool)) : Nat :=
  (20 * (darkCount modules : Int) - 10 * ((size * size : Nat) : Int)).natAbs / (size * size)

/-- One byte read from up to 8 bits, most significant bit first (bit 0 of
the chunk lands at bit position 7 of the byte), as the specification
words the packing. -/
def specByteAux (pos acc : Nat) : List Nat → Nat
  | [] => acc
  | b :: rest => specByteAux (pos + 1) (acc ||| (b <<< (7 - pos % 8))) rest

/-- One byte read from up to 8 bits, most significant bit first. -/
def specByte (bits : List Nat) : Nat :=
  specByteAux 0 0 bits

/-- A bit sequence cut into chunks of 8. -/
def bitChunks8 (l : List Nat) : List (List Nat) :=
  if l = [] then [] else l.take 8 :: bitChunks8 (l.drop 8)
termination_by l.length
decreasing_by
  simp only [List.length_drop]
  cases l with
  | nil => simp_all
  | cons a t =>
    simp only [List.length_cons]
    omega

/-- Packing a bit sequence into bytes most-significant-bit first, as the
specification words it. -/
def specPackMSB (l : List Nat) : List Nat :=
  (bitChunks8 l).map specByte

/-- The pad bytes as the specification words them: `m` whole bytes
alternating `0xEC, 0x11`, starting with `0xEC`. -/
def specPadBytes (m : Nat) : List Nat :=
  (List.range m).map (fun i => if i % 2 = 0 then 0xEC else 0x11)

/-- The pad bytes as the source loop produces them: `m` bytes starting at
`padByte`, toggling by `0xEC ^^^ 0x11` after each. -/
def padBytesSeq (padByte : Nat) : Nat → List Nat
  | 0 => []
  | m + 1 => padByte :: padBytesSeq (padByte ^^^ (0xEC ^^^ 0x11)) m

/-- The byte-packing fold with an explicit running bit index (the shape
`bb.enum.foldl packStep` unfolds to). -/
def packIdx (i : Nat) (arr : List Nat) : List Nat → List Nat
  | [] => arr
  | b :: rest => packIdx (i + 1) (packStep arr (i, b)) rest

/-- An `n × n` boolean matrix: `n` rows, each of length `n`. -/
def dims (g : List (List Bool)) (n : Nat) : Prop :=
  g.length = n ∧ ∀ r ∈ g, r.length = n

/-- A well-formed matrix under construction: both layers `n × n`. -/
def Grid.wf (g : Grid) (n : Nat) : Prop :=
  dims g.modules n ∧ dims g.isFunc n

/-- The facts about one entry of the two code tables that the
error-correction pipeline relies on for a valid version: at least one
block, a positive in-range ECC codeword count, and an ECC length that
fits inside one block. -/
abbrev eccTableOk (v : Nat) (e : Ecc) : Prop :=
  0 < numEccBlocks e v ∧ 0 < eccCodewordsPerBlock e v ∧
    (eccCodewordsPerBlock e v).toNat ≤
      getNumRawDataModules v / 8 / (numEccBlocks e v).toNat ∧
    (eccCodewordsPerBlock e v).toNat ≤ 255

/-! ### Generic list and fold lemmas -/

theorem foldl_invariant {α β : Type} (f : α → β → α) (P : α → Prop) (l : List β) (init : α)
    (h0 : P init) (hstep : ∀ a b, b ∈ l → P a → P (f a b)) : P (l.foldl f init) := by
  induction l generalizing init with
  | nil => exact h0
  | cons x xs ih =>
    exact ih (f init x) (hstep init x (by simp) h0)
      (fun a b hb ha => hstep a b (by simp [hb]) ha)

theorem dims_setAt {g : List (List Bool)} {n : Nat} (x y : Nat) (v : Bool)
    (h : dims g n) : dims (setAt g x y v) n := by
  obtain ⟨hl, hr⟩ := h
  by_cases hy : y < g.length
  · refine ⟨by simpa [setAt] using hl, ?_⟩
    intro r hrmem
    rcases List.mem_or_eq_of_mem_set hrmem with h1 | h2
    · exact hr r h1
    · subst h2
      rw [List.length_set]
      refine hr _ ?_
      rw [List.getD_eq_getElem?_getD]
      rcases List.getElem?_eq_getElem hy with h3
      rw [h3]
      exact List.getElem_mem _
  · have hid : setAt g x y v = g := by
      rw [setAt]
      exact List.set_eq_of_length_le (by omega)
    rw [hid]
    exact ⟨hl, hr⟩

theorem dims_initial (n : Nat) : dims (List.replicate n (List.replicate n false)) n := by
  constructor
  · simp
  · intro r hr
    rcases List.eq_of_mem_replicate hr with h
    simp [h]

theorem getAt_out_of_rows {g : List (List Bool)} {n : Nat} (h : dims g n) (x y : Nat)
    (hy : n ≤ y) : getAt g x y = false := by
  obtain ⟨hl, _⟩ := h
  rw [getAt, List.getD_eq_getElem?_getD g y [],
    List.getElem?_eq_none (show g.length ≤ y by omega)]
  rfl

theorem getAt_setAt_self {g : List (List Bool)} {n : Nat} (h : dims g n) (x y : Nat)
    (v : Bool) (hx : x < n) (hy : y < n) : getAt (setAt g x y v) x y = v := by
  obtain ⟨hl, hr⟩ := h
  have hyl : y < g.length := by omega
  have hrowlen : (g.getD y []).length = n := by
    rw [List.getD_eq_getElem?_getD g y [], List.getElem?_eq_getElem hyl]
    exact hr _ (List.getElem_mem _)
  have hset : (g.set y ((g.getD y []).set x v)).getD y [] = (g.getD y []).set x v := by
    rw [List.getD_eq_getElem?_getD, List.getElem?_set_self hyl]
    rfl
  rw [getAt, setAt, hset, List.getD_eq_getElem?_getD,
    List.getElem?_set_self (show x < (g.getD y []).length by omega)]
  rfl

theorem setFunctionModule_isFunc (g : Grid) (x y : Nat) (v : Bool) :
    (setFunctionModule g x y v).isFunc = setAt g.isFunc x y true := rfl

theorem setFunctionModule_modules (g : Grid) (x y : Nat) (v : Bool) :
    (setFunctionModule g x y v).modules = setAt g.modules x y v := rfl

theorem getAt_initial (n x y : Nat) :
    getAt (List.replicate n (List.replicate n false)) x y = false := by
  simp only [getAt, List.getD_eq_getElem?_getD, List.getElem?_replicate]
  by_cases hy : y < n <;> by_cases hx : x < n <;>
    simp [hy, hx, List.getD_eq_getElem?_getD, List.getElem?_replicate]

theorem wf_initialGrid (n : Nat) : (initialGrid n).wf n :=
  ⟨dims_initial n, dims_initial n⟩

theorem wf_setFunctionModule {g : Grid} {n : Nat} (h : g.wf n) (x y : Nat) (v : Bool) :
    (setFunctionModule g x y v).wf n :=
  ⟨dims_setAt x y v h.1, dims_setAt x y true h.2⟩

theorem wf_drawTimingPatterns {g : Grid} {n : Nat} (size : Nat) (h : g.wf n) :
    (drawTimingPatterns size g).wf n := by
  unfold drawTimingPatterns
  exact foldl_invariant _ (fun g : Grid => Grid.wf g n) _ _ h
    (fun a b _ ha => wf_setFunctionModule (wf_setFunctionModule ha _ _ _) _ _ _)

theorem wf_drawFinderPattern {g : Grid} {n : Nat} (size : Nat) (x y : Int) (h : g.wf n) :
    (drawFinderPattern size x y g).wf n := by
  unfold drawFinderPattern
  refine foldl_invariant _ (fun g : Grid => Grid.wf g n) _ _ h (fun a b _ ha => ?_)
  refine foldl_invariant _ (fun g : Grid => Grid.wf g n) _ _ ha (fun a2 b2 _ ha2 => ?_)
  dsimp only []
  split
  · exact wf_setFunctionModule ha2 _ _ _
  · exact ha2

theorem wf_drawAlignmentPattern {g : Grid} {n : Nat} (x y : Nat) (h : g.wf n) :
    (drawAlignmentPattern x y g).wf n := by
  unfold drawAlignmentPattern
  refine foldl_invariant _ (fun g : Grid => Grid.wf g n) _ _ h (fun a b _ ha => ?_)
  exact foldl_invariant _ (fun g : Grid => Grid.wf g n) _ _ ha
    (fun a2 b2 _ ha2 => wf_setFunctionModule ha2 _ _ _)

theorem wf_drawFormatBits {g : Grid} {n : Nat} (size : Nat) (ecl : Ecc) (mask : Nat)
    (h : g.wf n) : (drawFormatBits size ecl mask g).wf n := by
  unfold drawFormatBits
  refine wf_setFunctionModule ?_ _ _ _
  refine foldl_invariant _ (fun g : Grid => Grid.wf g n) _ _ ?_
    (fun a b _ ha => wf_setFunctionModule ha _ _ _)
  refine foldl_invariant _ (fun g : Grid => Grid.wf g n) _ _ ?_
    (fun a b _ ha => wf_setFunctionModule ha _ _ _)
  refine foldl_invariant _ (fun g : Grid => Grid.wf g n) _ _ ?_
    (fun a b _ ha => wf_setFunctionModule ha _ _ _)
  refine wf_setFunctionModule ?_ _ _ _
  refine wf_setFunctionModule ?_ _ _ _
  refine wf_setFunctionModule ?_ _ _ _
  exact foldl_invariant _ (fun g : Grid => Grid.wf g n) _ _ h
    (fun a b _ ha => wf_setFunctionModule ha _ _ _)

theorem wf_drawVersion {g : Grid} {n : Nat} (size ver : Nat) (h : g.wf n) :
    (drawVersion size ver g).wf n := by
  unfold drawVersion
  split
  · exact h
  · exact foldl_invariant _ (fun g : Grid => Grid.wf g n) _ _ h
      (fun a b _ ha => wf_setFunctionModule (wf_setFunctionModule ha _ _ _) _ _ _)

theorem wf_drawFunctionPatterns {g : Grid} {n : Nat} (size ver : Nat) (ecl : Ecc)
    (h : g.wf n) : (drawFunctionPatterns size ver ecl g).wf n := by
  unfold drawFunctionPatterns
  refine wf_drawVersion _ _ (wf_drawFormatBits _ _ _ ?_)
  refine foldl_invariant _ (fun g : Grid => Grid.wf g n) _ _ ?_ (fun a b _ ha => ?_)
  · exact wf_drawFinderPattern _ _ _ (wf_drawFinderPattern _ _ _
      (wf_drawFinderPattern _ _ _ (wf_drawTimingPatterns _ h)))
  · refine foldl_invariant _ (fun g : Grid => Grid.wf g n) _ _ ha (fun a2 b2 _ ha2 => ?_)
    dsimp only []
    split
    · exact ha2
    · exact wf_drawAlignmentPattern _ _ ha2

theorem wf_drawCodewords {g g2 : Grid} {n : Nat} (size ver : Nat) (data : List Nat)
    (h : g.wf n) (hok : drawCodewords size ver data g = .ok g2) : g2.wf n := by
  unfold drawCodewords at hok
  split at hok
  · exact absurd hok (by simp)
  · cases hok
    refine foldl_invariant _ (fun st : Grid × Nat => Grid.wf st.1 n) _ _ h (fun a b _ ha => ?_)
    refine foldl_invariant _ (fun st : Grid × Nat => Grid.wf st.1 n) _ _ ha (fun a2 b2 _ ha2 => ?_)
    refine foldl_invariant _ (fun st : Grid × Nat => Grid.wf st.1 n) _ _ ha2 (fun a3 b3 _ ha3 => ?_)
    dsimp only []
    split <;> split
    · exact ⟨dims_setAt _ _ _ ha3.1, ha3.2⟩
    · exact ha3
    · exact ⟨dims_setAt _ _ _ ha3.1, ha3.2⟩
    · exact ha3

theorem wf_applyMaskGrid {g : Grid} {n : Nat} (size mask : Nat) (h : g.wf n) :
    (applyMaskGrid size mask g).wf n := by
  unfold applyMaskGrid
  refine foldl_invariant _ (fun g : Grid => Grid.wf g n) _ _ h (fun a b _ ha => ?_)
  refine foldl_invariant _ (fun g : Grid => Grid.wf g n) _ _ ha (fun a2 b2 _ ha2 => ?_)
  dsimp only []
  split
  · exact ⟨dims_setAt _ _ _ ha2.1, ha2.2⟩
  · exact ha2

theorem wf_maskSearch {g : Grid} {n : Nat} (pen : List (List Bool) → Int) (size : Nat)
    (ecl : Ecc) (h : g.wf n) : (maskSearch pen size ecl g).2.2.wf n := by
  unfold maskSearch
  refine foldl_invariant _ (fun st : Int × Int × Grid => Grid.wf st.2.2 n) _ _ h
    (fun a b _ ha => ?_)
  exact wf_applyMaskGrid _ _ (wf_drawFormatBits _ _ _ (wf_applyMaskGrid _ _ ha))

/-! ### The version-selection loop -/

theorem selectVersion_unfold (segs : List QrSegment) (ecl : Ecc) (v maxV : Nat) :
    selectVersion segs ecl v maxV =
      match getTotalBits segs v with
      | some usedBits =>
        if (usedBits : Int) ≤ getNumDataCodewords v ecl * 8 then .ok (v, usedBits)
        else if maxV ≤ v then .error .DataTooLong
        else selectVersion segs ecl (v + 1) maxV
      | none =>
        if maxV ≤ v then .error .DataTooLong
        else selectVersion segs ecl (v + 1) maxV := by
  rw [selectVersion]

theorem selectVersion_some (segs : List QrSegment) (ecl : Ecc) (v maxV used : Nat)
    (h : getTotalBits segs v = some used) :
    selectVersion segs ecl v maxV =
      if (used : Int) ≤ getNumDataCodewords v ecl * 8 then .ok (v, used)
      else if maxV ≤ v then .error .DataTooLong
      else selectVersion segs ecl (v + 1) maxV := by
  rw [selectVersion_unfold, h]

theorem selectVersion_none (segs : List QrSegment) (ecl : Ecc) (v maxV : Nat)
    (h : getTotalBits segs v = none) :
    selectVersion segs ecl v maxV =
      if maxV ≤ v then .error .DataTooLong
      else selectVersion segs ecl (v + 1) maxV := by
  rw [selectVersion_unfold, h]

theorem selectVersion_spec (segs : List QrSegment) (ecl : Ecc) :
    ∀ (fuel v maxV : Nat), maxV - v ≤ fuel → v ≤ maxV →
      (∀ p, selectVersion segs ecl v maxV = .ok p →
          v ≤ p.1 ∧ p.1 ≤ maxV ∧ getTotalBits segs p.1 = some p.2 ∧
          fitsVersion segs ecl p.1 = true ∧
          ∀ w, v ≤ w → w < p.1 → fitsVersion segs ecl w = false) ∧
      (∀ e, selectVersion segs ecl v maxV = .error e →
          e = .DataTooLong ∧ ∀ w, v ≤ w → w ≤ maxV → fitsVersion segs ecl w = false) := by
  intro fuel
  induction fuel with
  | zero =>
    intro v maxV hfuel hvm
    have hveq : v = maxV := by omega
    rcases htot : getTotalBits segs v with _ | used
    · rw [selectVersion_none segs ecl v maxV htot, if_pos (by omega)]
      constructor
      · intro p hp
        exact absurd hp (by simp)
      · intro e he
        refine ⟨by simpa using he.symm, fun w hw1 hw2 => ?_⟩
        have : w = v := by omega
        subst this
        rw [fitsVersion, htot]
    · by_cases hfit : (used : Int) ≤ getNumDataCodewords v ecl * 8
      · rw [selectVersion_some segs ecl v maxV used htot, if_pos hfit]
        constructor
        · intro p hp
          injection hp with hpe
          subst hpe
          refine ⟨le_refl v, by omega, htot, ?_, fun w hw1 hw2 => by omega⟩
          rw [fitsVersion, htot]
          simpa using hfit
        · intro e he
          exact absurd he (by simp)
      · rw [selectVersion_some segs ecl v maxV used htot, if_neg hfit, if_pos (by omega)]
        constructor
        · intro p hp
          exact absurd hp (by simp)
        · intro e he
          refine ⟨by simpa using he.symm, fun w hw1 hw2 => ?_⟩
          have : w = v := by omega
          subst this
          rw [fitsVersion, htot]
          simpa using hfit
  | succ n ih =>
    intro v maxV hfuel hvm
    rcases htot : getTotalBits segs v with _ | used
    · by_cases hend : maxV ≤ v
      · rw [selectVersion_none segs ecl v maxV htot, if_pos hend]
        constructor
        · intro p hp
          exact absurd hp (by simp)
        · intro e he
          refine ⟨by simpa using he.symm, fun w hw1 hw2 => ?_⟩
          have : w = v := by omega
          subst this
          rw [fitsVersion, htot]
      · rw [selectVersion_none segs ecl v maxV htot, if_neg hend]
        rcases ih (v + 1) maxV (by omega) (by omega) with ⟨ihok, iherr⟩
        constructor
        · intro p hp
          rcases ihok p hp with ⟨h1, h2, h3, h4, h5⟩
          refine ⟨by omega, h2, h3, h4, fun w hw1 hw2 => ?_⟩
          by_cases hwv : w = v
          · subst hwv
            rw [fitsVersion, htot]
          · exact h5 w (by omega) hw2
        · intro e he
          rcases iherr e he with ⟨h1, h2⟩
          refine ⟨h1, fun w hw1 hw2 => ?_⟩
          by_cases hwv : w = v
          · subst hwv
            rw [fitsVersion, htot]
          · exact h2 w (by omega) hw2
    · by_cases hfit : (used : Int) ≤ getNumDataCodewords v ecl * 8
      · rw [selectVersion_some segs ecl v maxV used htot, if_pos hfit]
        constructor
        · intro p hp
          injection hp with hpe
          subst hpe
          refine ⟨le_refl v, hvm, htot, ?_, fun w hw1 hw2 => by omega⟩
          rw [fitsVersion, htot]
          simpa using hfit
        · intro e he
          exact absurd he (by simp)
      · rw [selectVersion_some segs ecl v maxV used htot, if_neg hfit]
        by_cases hend : maxV ≤ v
        · rw [if_pos hend]
          constructor
          · intro p hp
            exact absurd hp (by simp)
          · intro e he
            refine ⟨by simpa using he.symm, fun w hw1 hw2 => ?_⟩
            have : w = v := by omega
            subst this
            rw [fitsVersion, htot]
            simpa using hfit
        · rw [if_neg hend]
          rcases ih (v + 1) maxV (by omega) (by omega) with ⟨ihok, iherr⟩
          constructor
          · intro p hp
            rcases ihok p hp with ⟨h1, h2, h3, h4, h5⟩
            refine ⟨by omega, h2, h3, h4, fun w hw1 hw2 => ?_⟩
            by_cases hwv : w = v
            · subst hwv
              rw [fitsVersion, htot]
              simpa using hfit
            · exact h5 w (by omega) hw2
          · intro e he
            rcases iherr e he with ⟨h1, h2⟩
            refine ⟨h1, fun w hw1 hw2 => ?_⟩
            by_cases hwv : w = v
            · subst hwv
              rw [fitsVersion, htot]
              simpa using hfit
            · exact h2 w (by omega) hw2

/-! ### Claim C9: totality of the module lookup -/

/-- Claim C9: the module-lookup operation `getModule` is total: for every
symbol and every integer pair it returns the stored module value when
`0 ≤ x < size` and `0 ≤ y < size`, and returns false (light) rather than
an error for every out-of-range pair. -/
theorem c9_module_lookup_total (q : QrSymbol) (x y : Int) :
    getModule q x y =
      if 0 ≤ x ∧ x < (q.size : Int) ∧ 0 ≤ y ∧ y < (q.size : Int)
      then getAt q.modules x.toNat y.toNat else false := by
  unfold getModule
  by_cases h1 : 0 ≤ x <;> by_cases h2 : x < (q.size : Int) <;>
    by_cases h3 : 0 ≤ y <;> by_cases h4 : y < (q.size : Int) <;>
    simp [h1, h2, h3, h4]

/-- A closed instance of C9 exercising both the in-range and the
out-of-range case on a concrete symbol. -/
theorem c9_module_lookup_total_witness :
    getModule { version := 1, errorCorrectionLevel := .LOW, size := 2, mask := 0,
                modules := [[true, false], [false, true]] } 1 1 = true ∧
    getModule { version := 1, errorCorrectionLevel := .LOW, size := 2, mask := 0,
                modules := [[true, false], [false, true]] } (-1) 5 = false := by
  constructor
  · rw [c9_module_lookup_total]
    decide
  · rw [c9_module_lookup_total]
    decide

/-! ### Claim C8: alignment-pattern positions and version information -/

theorem alignPosLoop_ne_nil (fuel pos step : Nat) (acc : List Nat) (h : acc ≠ []) :
    alignPosLoop fuel pos step acc ≠ [] := by
  induction fuel generalizing pos acc with
  | zero => exact h
  | succ n ih =>
    cases acc with
    | nil => exact absurd rfl h
    | cons a rest => exact ih (pos - step) (a :: pos :: rest) (by simp)

/-- Claim C8: the alignment-pattern position set is empty exactly for
version 1 (every version from 2 up has a non-empty set), and embedded
version-information bits are drawn exactly from version 7 on:
`drawVersion` changes nothing for versions below 7 and writes modules for
every version 7..40. -/
theorem c8_alignment_and_version :
    getAlignmentPatternPositions 1 = [] ∧
    (∀ ver : Nat, 2 ≤ ver → getAlignmentPatternPositions ver ≠ []) ∧
    (∀ (size ver : Nat) (g : Grid), ver < 7 → drawVersion size ver g = g) ∧
    (∀ ver : Nat, 7 ≤ ver → ver ≤ 40 →
      drawVersion (4 * ver + 17) ver (initialGrid (4 * ver + 17)) ≠
        initialGrid (4 * ver + 17)) := by
  refine ⟨rfl, ?_, ?_, ?_⟩
  · intro ver h2
    rw [getAlignmentPatternPositions, if_neg (by omega)]
    exact alignPosLoop_ne_nil _ _ _ _ (by simp)
  · intro size ver g hlt
    rw [drawVersion, if_pos hlt]
  · intro ver h7 h40 heq
    have hval : getAt (drawVersion (4 * ver + 17) ver
        (initialGrid (4 * ver + 17))).isFunc (17 / 3) (4 * ver + 17 - 11 + 17 % 3) = true := by
      rw [drawVersion, if_neg (by omega)]
      rw [show List.range 18 = List.range 17 ++ [17] from by decide]
      rw [List.foldl_append, List.foldl_cons, List.foldl_nil]
      dsimp only []
      rw [setFunctionModule_isFunc]
      refine @getAt_setAt_self _ (4 * ver + 17) ?_ _ _ _ ?_ ?_
      · refine (wf_setFunctionModule ?_ _ _ _).2
        refine foldl_invariant _ (fun g : Grid => Grid.wf g (4 * ver + 17)) _ _
          (wf_initialGrid _)
          (fun a b _ ha => wf_setFunctionModule (wf_setFunctionModule ha _ _ _) _ _ _)
      · omega
      · omega
    rw [heq] at hval
    rw [show (initialGrid (4 * ver + 17)).isFunc =
      List.replicate (4 * ver + 17) (List.replicate (4 * ver + 17) false) from rfl] at hval
    rw [getAt_initial] at hval
    exact absurd hval (by simp)

/-! ### Claim C5: numeric segment packing -/

theorem numericChunkBits_length : ∀ digits : List Char,
    (numericChunkBits digits).length = digits.length / 3 * 10 +
      (if digits.length % 3 = 2 then 7 else if digits.length % 3 = 1 then 4 else 0)
  | c1 :: c2 :: c3 :: rest => by
    rw [numericChunkBits, List.length_append, numericChunkBits_length rest]
    simp only [msbBits, List.length_map, List.length_range, List.length_cons]
    split_ifs <;> omega
  | [c1, c2] => by
    rw [numericChunkBits]
    simp [msbBits]
  | [c1] => by
    rw [numericChunkBits]
    simp [msbBits]
  | [] => by
    rw [numericChunkBits]
    simp

/-- Claim C5: the numeric builder packs digit groups of 3 into 10 bits, a
trailing pair into 7 bits and a trailing single digit into 4 bits (so the
payload length is `10 * (n / 3)` plus 7 or 4 for a remainder of 2 or 1),
each group packed as its decimal value; in particular `"12345"` yields
one Numeric segment whose payload is the 10 bits of 123 followed by the
7 bits of 45, 17 bits in total. -/
theorem c5_numeric_segments :
    (∀ digits : List Char,
      (numericChunkBits digits).length = digits.length / 3 * 10 +
        (if digits.length % 3 = 2 then 7 else if digits.length % 3 = 1 then 4 else 0)) ∧
    makeSegments ['1', '2', '3', '4', '5'] =
      [{ mode := .NUMERIC, numChars := 5, bitData := msbBits 123 10 ++ msbBits 45 7 }] ∧
    (msbBits 123 10 ++ msbBits 45 7).length = 17 ∧
    (∀ digits : List Char, isNumeric digits = true →
      makeNumeric digits = .ok (makeNumericCore digits)) := by
  refine ⟨numericChunkBits_length, by decide, by decide, ?_⟩
  intro digits h
  rw [makeNumeric, if_pos h]

/-- A closed instance of C5 at a concrete input. -/
theorem c5_numeric_segments_witness :
    (numericChunkBits ['9', '8', '7', '6']).length = 14 ∧
    makeNumeric ['4', '2'] = .ok (makeNumericCore ['4', '2']) := by
  constructor
  · rw [(c5_numeric_segments).1 ['9', '8', '7', '6']]
    decide
  · exact (c5_numeric_segments).2.2.2 ['4', '2'] (by decide)

/-! ### Claim C3: the rule-4 penalty step count -/

set_option maxRecDepth 8000 in
/-- Claim C3 counterexample: the all-dark 21×21 matrix has a dark-module
deviation of exactly 50%, i.e. exactly 10 steps of 5%, so the claim
pledges a rule-4 contribution of `10 * 10 = 100`; the code contributes
`ceil(50 / 5) - 1 = 9` steps, i.e. 90. -/
theorem c3_counterexample :
    rule4Term 21 (List.replicate 21 (List.replicate 21 true)) ≠
      PENALTY_N4 * (specRule4Steps 21 (List.replicate 21 (List.replicate 21 true)) : Int) ∧
    rule4Term 21 (List.replicate 21 (List.replicate 21 true)) = 90 ∧
    PENALTY_N4 * (specRule4Steps 21 (List.replicate 21 (List.replicate 21 true)) : Int) = 100 := by
  refine ⟨?_, by decide, by decide⟩
  decide

theorem ceil_div_sub_one (a t : Nat) (ht : 0 < t) :
    ((a + t - 1) / t : Nat) = if t ∣ a then a / t else a / t + 1 := by
  rcases Nat.eq_zero_or_pos a with ha | ha
  · subst ha
    rw [if_pos (Nat.dvd_zero t), Nat.zero_add, Nat.zero_div]
    exact Nat.div_eq_of_lt (by omega)
  · have hmod := Nat.div_add_mod a t
    have hlt : a % t < t := Nat.mod_lt a ht
    by_cases hd : t ∣ a
    · rw [if_pos hd]
      have hr0 : a % t = 0 := Nat.dvd_iff_mod_eq_zero.mp hd
      have htq : t * (a / t) = a := by
        rw [hr0] at hmod
        simpa using hmod
      have hsum : a + t - 1 = t * (a / t) + (t - 1) := by
        rw [htq]
        omega
      rw [hsum, Nat.mul_add_div ht, Nat.div_eq_of_lt (show t - 1 < t by omega)]
      omega
    · rw [if_neg hd]
      have hr : a % t ≠ 0 := fun h => hd (Nat.dvd_iff_mod_eq_zero.mpr h)
      have hsum : a + t - 1 = t * (a / t + 1) + (a % t - 1) := by
        rw [Nat.mul_succ]
        set X := t * (a / t) with hX
        omega
      rw [hsum, Nat.mul_add_div ht,
        Nat.div_eq_of_lt (show a % t - 1 < t by omega)]

/-- Claim C3 amended: rule 4 contributes `PENALTY_N4` (10) points per
step, where the step count is `ceil(deviation / 5%) - 1`: that equals the
rounded-down step count of the specification whenever the deviation is
not an exact multiple of 5%, and is one step fewer whenever the
deviation is a positive exact multiple of 5%. -/
theorem c3_amended (size : Nat) (modules : List (List Bool)) (hsize : 0 < size) :
    (¬ (size * size ∣ (20 * (darkCount modules : Int) -
          10 * ((size * size : Nat) : Int)).natAbs) →
      rule4Term size modules = PENALTY_N4 * (specRule4Steps size modules : Int)) ∧
    ((size * size ∣ (20 * (darkCount modules : Int) -
          10 * ((size * size : Nat) : Int)).natAbs) →
      0 < (20 * (darkCount modules : Int) - 10 * ((size * size : Nat) : Int)).natAbs →
      rule4Term size modules = PENALTY_N4 * ((specRule4Steps size modules : Int) - 1)) := by
  have ht : 0 < size * size := Nat.mul_pos hsize hsize
  rw [rule4Term, specRule4Steps]
  set a := (20 * (darkCount modules : Int) - 10 * ((size * size : Nat) : Int)).natAbs with ha
  constructor
  · intro hnd
    rw [ceil_div_sub_one a (size * size) ht, if_neg hnd]
    push_cast
    ring
  · intro hd hpos
    rw [ceil_div_sub_one a (size * size) ht, if_pos hd]
    have hq : 0 < a / (size * size) := Nat.div_pos (Nat.le_of_dvd hpos hd) ht
    push_cast [hq]
    ring

set_option maxRecDepth 8000 in
/-- A closed instance of the amended C3 on a 25×25 matrix with 250 dark
modules: deviation exactly 10% (2 steps), rule 4 contributes one step,
10 points. -/
theorem c3_amended_witness :
    rule4Term 25 (List.replicate 10 (List.replicate 25 true) ++
        List.replicate 15 (List.replicate 25 false)) =
      PENALTY_N4 * ((specRule4Steps 25 (List.replicate 10 (List.replicate 25 true) ++
        List.replicate 15 (List.replicate 25 false)) : Int) - 1) := by
  exact (c3_amended 25 (List.replicate 10 (List.replicate 25 true) ++
      List.replicate 15 (List.replicate 25 false)) (by decide)).2 (by decide) (by decide)

/-! ### Inversion of the constructor on success -/

theorem constructWith_ok_inversion (pen : List (List Bool) → Int) (version : Nat)
    (ecl : Ecc) (data : List Nat) (msk : Int) (s : QrSymbol)
    (h : constructWith pen version ecl data msk = .ok s) :
    1 ≤ version ∧ version ≤ 40 ∧ (-1 ≤ msk ∧ msk ≤ 7) ∧
    ∃ g, baseMatrix version ecl data = .ok g ∧
      (let st : Int × Grid :=
        if msk = -1 then
          ((maskSearch pen (version * 4 + 17) ecl g).1,
            (maskSearch pen (version * 4 + 17) ecl g).2.2)
        else (msk, g)
      (0 ≤ st.1 ∧ st.1 ≤ 7) ∧
      s = { version := version, errorCorrectionLevel := ecl, size := version * 4 + 17,
            mask := st.1,
            modules := (drawFormatBits (version * 4 + 17) ecl st.1.toNat
              (applyMaskGrid (version * 4 + 17) st.1.toNat st.2)).modules }) := by
  unfold constructWith at h
  split at h
  · exact absurd h (by simp)
  · split at h
    · exact absurd h (by simp)
    · rcases hbase : baseMatrix version ecl data with e | g
      all_goals rw [hbase] at h
      · exact absurd h (by simp)
      · refine ⟨by omega, by omega, by omega, g, rfl, ?_⟩
        dsimp only [] at h ⊢
        by_cases hmsk : msk = -1
        · rw [if_pos hmsk] at h ⊢
          dsimp only [] at h ⊢
          split at h
          · exact absurd h (by simp)
          · refine ⟨by omega, ?_⟩
            injection h with hse
            exact hse.symm
        · rw [if_neg hmsk] at h ⊢
          dsimp only [] at h ⊢
          split at h
          · exact absurd h (by simp)
          · refine ⟨by omega, ?_⟩
            injection h with hse
            exact hse.symm

/-! ### Claim C6: an explicit mask skips the penalty search -/

/-- Claim C6: with an explicit mask index `m` in 0..7, construction
performs no penalty-score evaluation at all (the result does not depend
on the penalty function the constructor is parameterised by), the
returned symbol has `mask = m`, and its module grid is the base matrix
with mask formula `m` applied and the format bits of `m` drawn; the
8-candidate search runs only for the automatic sentinel `-1`. -/
theorem c6_explicit_mask (pen pen2 : List (List Bool) → Int) (version : Nat) (ecl : Ecc)
    (dataCodewords : List Nat) (m : Fin 8) :
    constructWith pen version ecl dataCodewords ((m : Nat) : Int) =
      constructWith pen2 version ecl dataCodewords ((m : Nat) : Int) ∧
    (match constructWith pen version ecl dataCodewords ((m : Nat) : Int),
        baseMatrix version ecl dataCodewords with
     | .ok s, .ok g =>
        s.mask = ((m : Nat) : Int) ∧
        s.modules = (drawFormatBits (version * 4 + 17) ecl (m : Nat)
          (applyMaskGrid (version * 4 + 17) (m : Nat) g)).modules
     | .ok _, .error _ => False
     | .error _, _ => True) := by
  have h8 : (m : Nat) < 8 := m.isLt
  have hne : ¬ (((m : Nat) : Int) = -1) := by omega
  have heq : constructWith pen version ecl dataCodewords ((m : Nat) : Int) =
      constructWith pen2 version ecl dataCodewords ((m : Nat) : Int) := by
    unfold constructWith
    split
    · rfl
    · split
      · rfl
      · rcases hbase : baseMatrix version ecl dataCodewords with e | g
        · rfl
        · rfl
  refine ⟨heq, ?_⟩
  rcases hc : constructWith pen version ecl dataCodewords ((m : Nat) : Int) with e | s
  · rcases baseMatrix version ecl dataCodewords with e2 | g <;> exact trivial
  · rcases constructWith_ok_inversion _ _ _ _ _ _ hc with
      ⟨hv1, hv2, hmr, g, hbase, hrest⟩
    rw [hbase]
    rw [if_neg hne] at hrest
    dsimp only [] at hrest
    rcases hrest with ⟨hm07, hs⟩
    subst hs
    refine ⟨rfl, ?_⟩
    dsimp only []
    rw [Int.toNat_natCast]

/-- A closed instance of C6: two different penalty functions, version 1,
explicit mask 3. -/
theorem c6_explicit_mask_witness :
    constructWith (fun _ => 0) 1 .LOW (List.replicate 19 0) 3 =
      constructWith (fun _ => 7) 1 .LOW (List.replicate 19 0) 3 := by
  exact (c6_explicit_mask (fun _ => 0) (fun _ => 7) 1 .LOW (List.replicate 19 0) 3).1

/-! ### Claim C10: the automatic mask search keeps the first strict
minimum -/

theorem getD_mem_of_lt (l : List Int) (j : Nat) (h : j < l.length) (d : Int) :
    l.getD j d ∈ l := by
  rw [List.getD_eq_getElem?_getD, List.getElem?_eq_getElem h]
  exact List.getElem_mem h

theorem maskSearch_invariant (pen : List (List Bool) → Int) (size : Nat) (ecl : Ecc)
    (g : Grid) : ∀ k : Nat,
    ((List.range k).foldl (maskSearchStep pen size ecl) (-1, 1000000000, g)).2.2 =
      ((List.range k).foldl (searchPensStep pen size ecl) (g, [])).1 ∧
    ((List.range k).foldl (searchPensStep pen size ecl) (g, [])).2.length = k ∧
    ((((List.range k).foldl (maskSearchStep pen size ecl) (-1, 1000000000, g)).1 = -1 ∧
        (((List.range k).foldl (maskSearchStep pen size ecl) (-1, 1000000000, g)).2.1 =
          1000000000) ∧
        ∀ p ∈ (((List.range k).foldl (searchPensStep pen size ecl) (g, [])).2),
          1000000000 ≤ p) ∨
      (0 ≤ ((List.range k).foldl (maskSearchStep pen size ecl) (-1, 1000000000, g)).1 ∧
        ((List.range k).foldl (maskSearchStep pen size ecl) (-1, 1000000000, g)).1 < (k : Int) ∧
        (((List.range k).foldl (maskSearchStep pen size ecl) (-1, 1000000000, g)).2.1 =
          (((List.range k).foldl (searchPensStep pen size ecl) (g, [])).2).getD
            (((List.range k).foldl (maskSearchStep pen size ecl) (-1, 1000000000, g)).1.toNat) 0) ∧
        ((List.range k).foldl (maskSearchStep pen size ecl) (-1, 1000000000, g)).2.1 <
          1000000000 ∧
        (∀ i, i < k →
          ((List.range k).foldl (maskSearchStep pen size ecl) (-1, 1000000000, g)).2.1 ≤
            (((List.range k).foldl (searchPensStep pen size ecl) (g, [])).2).getD i 0) ∧
        (∀ j, j < ((List.range k).foldl (maskSearchStep pen size ecl)
              (-1, 1000000000, g)).1.toNat →
          ((List.range k).foldl (maskSearchStep pen size ecl) (-1, 1000000000, g)).2.1 <
            (((List.range k).foldl (searchPensStep pen size ecl) (g, [])).2).getD j 0))) := by
  intro k
  induction k with
  | zero =>
    exact ⟨rfl, rfl, Or.inl ⟨rfl, rfl, by simp⟩⟩
  | succ n ih =>
    obtain ⟨hg, hlen, hinv⟩ := ih
    rw [List.range_succ, List.foldl_append, List.foldl_append,
      List.foldl_cons, List.foldl_cons, List.foldl_nil, List.foldl_nil]
    set A := (List.range n).foldl (maskSearchStep pen size ecl) (-1, 1000000000, g) with hA
    set B := (List.range n).foldl (searchPensStep pen size ecl) (g, []) with hB
    unfold maskSearchStep searchPensStep
    rw [← hg]
    dsimp only []
    set p := pen (drawFormatBits size ecl n (applyMaskGrid size n A.2.2)).modules with hp
    refine ⟨rfl, by simpa using hlen, ?_⟩
    by_cases hlt : p < A.2.1
    · rw [if_pos hlt]
      right
      dsimp only []
      have hgetn : (B.2 ++ [p]).getD ((n : Int)).toNat 0 = p := by
        rw [Int.toNat_natCast, List.getD_append_right B.2 [p] 0 n (by omega), hlen]
        simp
      have hple : p < 1000000000 := by
        rcases hinv with ⟨_, hpen, _⟩ | ⟨_, _, _, hlt9, _, _⟩
        · omega
        · omega
      refine ⟨by omega, by omega, hgetn.symm, hple, ?_, ?_⟩
      · intro i hi
        by_cases hin : i < n
        · rw [List.getD_append B.2 [p] 0 i (by omega)]
          rcases hinv with ⟨_, hpen, hall⟩ | ⟨_, _, _, _, hmin, _⟩
          · have := hall (B.2.getD i 0) (getD_mem_of_lt B.2 i (by omega) 0)
            omega
          · have := hmin i hin
            omega
        · have : i = n := by omega
          subst this
          rw [List.getD_append_right B.2 [p] 0 i (by omega), hlen]
          simp
      · intro j hj
        rw [Int.toNat_natCast] at hj
        rw [List.getD_append B.2 [p] 0 j (by omega)]
        rcases hinv with ⟨_, hpen, hall⟩ | ⟨_, _, _, _, hmin, _⟩
        · have := hall (B.2.getD j 0) (getD_mem_of_lt B.2 j (by omega) 0)
          omega
        · have := hmin j (by omega)
          omega
    · rw [if_neg hlt]
      dsimp only []
      rcases hinv with ⟨hm, hpen, hall⟩ | ⟨h0, hk, hbest, hlt9, hmin, hstrict⟩
      · left
        refine ⟨hm, hpen, ?_⟩
        intro q hq
        rcases List.mem_append.mp hq with hq1 | hq2
        · exact hall q hq1
        · have : q = p := by simpa using hq2
          omega
      · right
        have htn : A.1.toNat < n := by omega
        refine ⟨h0, by omega, ?_, hlt9, ?_, ?_⟩
        · rw [List.getD_append B.2 [p] 0 A.1.toNat (by omega)]
          exact hbest
        · intro i hi
          by_cases hin : i < n
          · rw [List.getD_append B.2 [p] 0 i (by omega)]
            exact hmin i hin
          · have : i = n := by omega
            subst this
            rw [List.getD_append_right B.2 [p] 0 i (by omega), hlen]
            simpa using not_lt.mp hlt
        · intro j hj
          rw [List.getD_append B.2 [p] 0 j (by omega)]
          exact hstrict j hj

theorem maskSearch_eq_fold (pen : List (List Bool) → Int) (size : Nat) (ecl : Ecc)
    (g : Grid) : maskSearch pen size ecl g =
      (List.range 8).foldl (maskSearchStep pen size ecl) (-1, 1000000000, g) := rfl

theorem searchPens_eq_fold (pen : List (List Bool) → Int) (size : Nat) (ecl : Ecc)
    (g : Grid) : searchPens pen size ecl g =
      ((List.range 8).foldl (searchPensStep pen size ecl) (g, [])).2 := rfl

/-- Claim C10: when the mask is chosen automatically (mask argument -1)
the symbol's chosen mask index is the smallest of the indices 0..7
attaining the minimal penalty of the 8-candidate search: the search
updates its winner only on a strictly smaller penalty while scanning the
indices in increasing order, so every earlier index scores strictly
worse. -/
theorem c10_mask_tie_break (pen : List (List Bool) → Int) (version : Nat) (ecl : Ecc)
    (dataCodewords : List Nat) :
    match constructWith pen version ecl dataCodewords (-1),
        baseMatrix version ecl dataCodewords with
    | .ok s, .ok g =>
        0 ≤ s.mask ∧ s.mask < 8 ∧
        (∀ i, i < 8 →
          (searchPens pen (version * 4 + 17) ecl g).getD s.mask.toNat 0 ≤
            (searchPens pen (version * 4 + 17) ecl g).getD i 0) ∧
        (∀ j, j < s.mask.toNat →
          (searchPens pen (version * 4 + 17) ecl g).getD s.mask.toNat 0 <
            (searchPens pen (version * 4 + 17) ecl g).getD j 0)
    | .ok _, .error _ => False
    | .error _, _ => True := by
  rcases hc : constructWith pen version ecl dataCodewords (-1) with e | s
  · rcases baseMatrix version ecl dataCodewords with e2 | g <;> exact trivial
  · rcases constructWith_ok_inversion _ _ _ _ _ _ hc with ⟨_, _, _, g, hbase, hrest⟩
    rw [hbase]
    rw [if_pos rfl] at hrest
    dsimp only [] at hrest
    rcases hrest with ⟨⟨hm0, hm7⟩, hs⟩
    subst hs
    dsimp only []
    rw [maskSearch_eq_fold] at hm0 hm7 ⊢
    rw [searchPens_eq_fold]
    rcases maskSearch_invariant pen (version * 4 + 17) ecl g 8 with ⟨_, hlen8, hinv⟩
    rcases hinv with ⟨hm, _, _⟩ | ⟨h0, hk, hbest, hlt9, hmin, hstrict⟩
    · exact absurd hm (by omega)
    · refine ⟨hm0, by omega, ?_, ?_⟩
      · intro i hi
        rw [← hbest]
        exact hmin i hi
      · intro j hj
        rw [← hbest]
        exact hstrict j hj

/-- A closed instance of C10: a constant penalty function ties all 8
candidates, and the chosen mask index is 0. -/
theorem c10_mask_tie_break_witness :
    match constructWith (fun _ => 5) 1 .LOW (List.replicate 19 0) (-1),
        baseMatrix 1 .LOW (List.replicate 19 0) with
    | .ok s, .ok g =>
        0 ≤ s.mask ∧ s.mask < 8 ∧
        (∀ i, i < 8 →
          (searchPens (fun _ => 5) 21 .LOW g).getD s.mask.toNat 0 ≤
            (searchPens (fun _ => 5) 21 .LOW g).getD i 0) ∧
        (∀ j, j < s.mask.toNat →
          (searchPens (fun _ => 5) 21 .LOW g).getD s.mask.toNat 0 <
            (searchPens (fun _ => 5) 21 .LOW g).getD j 0)
    | .ok _, .error _ => False
    | .error _, _ => True :=
  c10_mask_tie_break (fun _ => 5) 1 .LOW (List.replicate 19 0)

/-! ### Claim C2: the ECC boost step -/

theorem boostEclLevel_spec (dataUsedBits version : Nat) (ecl : Ecc)
    (hfit : (dataUsedBits : Int) ≤ getNumDataCodewords version ecl * 8) :
    ecl.ordinal ≤ (boostEclLevel true dataUsedBits version ecl).ordinal ∧
    (dataUsedBits : Int) ≤
      getNumDataCodewords version (boostEclLevel true dataUsedBits version ecl) * 8 := by
  unfold boostEclLevel
  simp only [List.foldl]
  by_cases hM : (dataUsedBits : Int) ≤ getNumDataCodewords version .MEDIUM * 8 <;>
    by_cases hQ : (dataUsedBits : Int) ≤ getNumDataCodewords version .QUARTILE * 8 <;>
    by_cases hH : (dataUsedBits : Int) ≤ getNumDataCodewords version .HIGH * 8 <;>
    cases ecl <;>
    simp [hM, hQ, hH, Ecc.ordinal] <;>
    omega

/-- Claim C2: with `boostEcl = true`, after the version is fixed the ECC
level may only be raised: the returned symbol's version equals the one
the search loop chose at the requested level, its level is never below
the requested level, the fixed version's capacity at the final level
still holds the already-computed bit total, and the final level is
exactly the result of the MEDIUM → QUARTILE → HIGH boost chain. -/
theorem c2_ecl_boost (segs : List QrSegment) (ecl : Ecc) :
    match encodeSegments segs ecl 1 40 (-1) true, selectVersion segs ecl 1 40 with
    | .ok s, .ok p =>
        s.version = p.1 ∧
        ecl.ordinal ≤ s.errorCorrectionLevel.ordinal ∧
        (p.2 : Int) ≤ getNumDataCodewords p.1 s.errorCorrectionLevel * 8 ∧
        s.errorCorrectionLevel = boostEclLevel true p.2 p.1 ecl
    | .ok _, .error _ => False
    | .error _, _ => True := by
  rcases he : encodeSegments segs ecl 1 40 (-1) true with e | s
  · rcases selectVersion segs ecl 1 40 with e2 | p <;> exact trivial
  · unfold encodeSegments at he
    rw [if_neg (by omega)] at he
    rcases hsel : selectVersion segs ecl 1 40 with e2 | p
    all_goals rw [hsel] at he
    · exact absurd he (by simp)
    · unfold construct at he
      rcases constructWith_ok_inversion _ _ _ _ _ _ he with ⟨_, _, _, g, hbase, hrest⟩
      rw [if_pos rfl] at hrest
      dsimp only [] at hrest
      rcases hrest with ⟨hm07, hs⟩
      have hver : s.version = p.1 := by rw [hs]
      have hecl : s.errorCorrectionLevel = boostEclLevel true p.2 p.1 ecl := by rw [hs]
      rcases selectVersion_spec segs ecl 40 1 40 (by omega) (by omega) with ⟨hok, _⟩
      rcases hok p hsel with ⟨_, _, _, hfitv, _⟩
      have hfit : (p.2 : Int) ≤ getNumDataCodewords p.1 ecl * 8 := by
        rw [fitsVersion] at hfitv
        rcases htot : getTotalBits segs p.1 with _ | u
        · rw [htot] at hfitv
          simp at hfitv
        · rw [htot] at hfitv
          have hu : u = p.2 := by
            rcases hok p hsel with ⟨_, _, htot2, _, _⟩
            rw [htot] at htot2
            injection htot2 with h2
          subst hu
          simpa using hfitv
      rcases boostEclLevel_spec p.2 p.1 ecl hfit with ⟨hord, hcap⟩
      refine ⟨hver, ?_, ?_, hecl⟩
      · rw [hecl]
        exact hord
      · rw [hecl]
        exact hcap

/-- A closed instance of C2: the numeric content 12345 requested at LOW
boosts without changing the version. -/
theorem c2_ecl_boost_witness :
    match encodeSegments [makeNumericCore ['1', '2', '3', '4', '5']] .LOW 1 40 (-1) true,
        selectVersion [makeNumericCore ['1', '2', '3', '4', '5']] .LOW 1 40 with
    | .ok s, .ok p =>
        s.version = p.1 ∧
        Ecc.LOW.ordinal ≤ s.errorCorrectionLevel.ordinal ∧
        (p.2 : Int) ≤ getNumDataCodewords p.1 s.errorCorrectionLevel * 8 ∧
        s.errorCorrectionLevel = boostEclLevel true p.2 p.1 .LOW
    | .ok _, .error _ => False
    | .error _, _ => True :=
  c2_ecl_boost [makeNumericCore ['1', '2', '3', '4', '5']] .LOW

/-! ### Claim C7: the error taxonomy -/

/-- Claim C7: both failure kinds are raised synchronously and terminate
the encode call with no symbol: out-of-range `minVersion` / `maxVersion` /
`mask` arguments make `encodeSegments` return InvalidArgument, an
out-of-range version or mask makes the constructor return
InvalidArgument, an out-of-range Reed-Solomon degree returns
InvalidArgument, an invalid character reaching a mode-specific packer
returns InvalidArgument, and every `encodeSegments` call returns either a
complete symbol or exactly one of the two errors - never a partial
symbol. -/
theorem c7_error_taxonomy :
    (∀ (segs : List QrSegment) (ecl : Ecc) (minV maxV : Nat) (mask : Int) (boost : Bool),
      (¬(1 ≤ minV ∧ minV ≤ maxV ∧ maxV ≤ 40) ∨ mask < -1 ∨ 7 < mask) →
      encodeSegments segs ecl minV maxV mask boost = .error .InvalidArgument) ∧
    (∀ (pen : List (List Bool) → Int) (version : Nat) (ecl : Ecc) (data : List Nat)
        (msk : Int),
      (version < 1 ∨ 40 < version ∨ msk < -1 ∨ 7 < msk) →
      constructWith pen version ecl data msk = .error .InvalidArgument) ∧
    (∀ degree : Nat, (degree < 1 ∨ 255 < degree) →
      reedSolomonComputeDivisor degree = .error .InvalidArgument) ∧
    (∀ text : List Char, isNumeric text = false →
      makeNumeric text = .error .InvalidArgument) ∧
    (∀ text : List Char, isAlphanumeric text = false →
      makeAlphanumeric text = .error .InvalidArgument) ∧
    (∀ (segs : List QrSegment) (ecl : Ecc) (minV maxV : Nat) (mask : Int) (boost : Bool),
      (∃ s, encodeSegments segs ecl minV maxV mask boost = .ok s) ∨
      encodeSegments segs ecl minV maxV mask boost = .error .DataTooLong ∨
      encodeSegments segs ecl minV maxV mask boost = .error .InvalidArgument) := by
  refine ⟨?_, ?_, ?_, ?_, ?_, ?_⟩
  · intro segs ecl minV maxV mask boost h
    rw [encodeSegments, if_pos h]
  · intro pen version ecl data msk h
    unfold constructWith
    split
    · rfl
    · split
      · rfl
      · omega
  · intro degree h
    rw [reedSolomonComputeDivisor, if_pos h]
  · intro text h
    rw [makeNumeric, if_neg (by simp [h])]
  · intro text h
    rw [makeAlphanumeric, if_neg (by simp [h])]
  · intro segs ecl minV maxV mask boost
    rcases he : encodeSegments segs ecl minV maxV mask boost with e | s
    · cases e
      · exact Or.inr (Or.inl rfl)
      · exact Or.inr (Or.inr rfl)
    · exact Or.inl ⟨s, rfl⟩

/-- Closed instances of C7: each failure kind at a concrete input. -/
theorem c7_error_taxonomy_witness :
    encodeSegments [] .LOW 0 40 (-1) true = .error .InvalidArgument ∧
    constructWith (fun _ => 0) 0 .LOW [] 0 = .error .InvalidArgument ∧
    constructWith (fun _ => 0) 1 .LOW [] 9 = .error .InvalidArgument ∧
    reedSolomonComputeDivisor 0 = .error .InvalidArgument ∧
    makeNumeric ['x'] = .error .InvalidArgument := by
  refine ⟨?_, ?_, ?_, ?_, ?_⟩
  · exact c7_error_taxonomy.1 [] .LOW 0 40 (-1) true (by decide)
  · exact c7_error_taxonomy.2.1 (fun _ => 0) 0 .LOW [] 0 (by decide)
  · exact c7_error_taxonomy.2.1 (fun _ => 0) 1 .LOW [] 9 (by decide)
  · exact c7_error_taxonomy.2.2.1 0 (by decide)
  · exact c7_error_taxonomy.2.2.2.1 ['x'] (by decide)

/-! ### Bit-assembly lemmas (claims C1 and C4) -/

theorem msbBits_length (val len : Nat) : (msbBits val len).length = len := by
  simp [msbBits]

theorem appendBits_length (val len : Nat) (bb : List Nat) :
    (appendBits val len bb).length = bb.length + len := by
  simp [appendBits, msbBits]

theorem msbBits_zero (len : Nat) : msbBits 0 len = List.replicate len 0 := by
  unfold msbBits
  rw [List.eq_replicate_iff]
  refine ⟨by simp, ?_⟩
  intro b hb
  rcases List.mem_map.mp hb with ⟨i, _, hi⟩
  simpa using hi.symm

theorem totalBits_fold_none (version : Nat) (segs : List QrSegment) :
    segs.foldl
      (fun acc seg =>
        match acc with
        | none => none
        | some r =>
          let ccbits := seg.mode.numCharCountBits version
          if (1 <<< ccbits) ≤ seg.numChars then none
          else some (r + 4 + ccbits + seg.bitData.length))
      none = none := by
  induction segs with
  | nil => rfl
  | cons seg rest ih => simpa using ih

theorem segsBits_fold_length (version : Nat) : ∀ (segs : List QrSegment) (r : Nat)
    (bb : List Nat), bb.length = r → ∀ n,
    segs.foldl
      (fun acc seg =>
        match acc with
        | none => none
        | some r2 =>
          let ccbits := seg.mode.numCharCountBits version
          if (1 <<< ccbits) ≤ seg.numChars then none
          else some (r2 + 4 + ccbits + seg.bitData.length))
      (some r) = some n →
    (segs.foldl
      (fun bb seg =>
        appendBits seg.numChars (seg.mode.numCharCountBits version)
          (appendBits seg.mode.modeBits 4 bb) ++ seg.bitData) bb).length = n := by
  intro segs
  induction segs with
  | nil =>
    intro r bb hbr n h
    simp only [List.foldl_nil] at h ⊢
    injection h with h2
    omega
  | cons seg rest ih =>
    intro r bb hbr n h
    simp only [List.foldl_cons] at h ⊢
    by_cases hover : (1 <<< seg.mode.numCharCountBits version) ≤ seg.numChars
    · rw [if_pos hover] at h
      rw [totalBits_fold_none] at h
      exact absurd h (by simp)
    · rw [if_neg hover] at h
      refine ih _ _ ?_ n h
      simp only [List.length_append, appendBits_length]
      omega

theorem segsBits_length_of_total (segs : List QrSegment) (version n : Nat)
    (h : getTotalBits segs version = some n) :
    (segsBits version segs).length = n :=
  segsBits_fold_length version segs 0 [] rfl n h

theorem padLoop_eq (cap : Nat) : ∀ (m p : Nat) (bb : List Nat),
    bb.length + 8 * m = cap →
    padLoop p bb cap = bb ++ ((padBytesSeq p m).map (fun b => msbBits b 8)).flatten := by
  intro m
  induction m with
  | zero =>
    intro p bb hlen
    rw [padLoop, if_neg (by omega)]
    simp [padBytesSeq]
  | succ k ih =>
    intro p bb hlen
    rw [padLoop, if_pos (by omega)]
    rw [ih (p ^^^ (0xEC ^^^ 0x11)) (appendBits p 8 bb)
      (by rw [appendBits_length]; omega)]
    simp [padBytesSeq, appendBits, List.append_assoc]

theorem padLoop_length (cap m p : Nat) (bb : List Nat) (hlen : bb.length + 8 * m = cap) :
    (padLoop p bb cap).length = cap := by
  rw [padLoop_eq cap m p bb hlen]
  have hflat : ∀ (q r : Nat), (((padBytesSeq q r).map (fun b => msbBits b 8)).flatten).length =
      8 * r := by
    intro q r
    induction r generalizing q with
    | zero => rfl
    | succ j ihj =>
      rw [padBytesSeq]
      simp only [List.map_cons, List.flatten_cons, List.length_append, msbBits_length]
      rw [ihj]
      omega
  rw [List.length_append, hflat]
  omega

theorem padBytesSeq_spec : ∀ m : Nat,
    padBytesSeq 0xEC m = specPadBytes m ∧
    padBytesSeq 0x11 m = (List.range m).map (fun i => if i % 2 = 0 then 0x11 else 0xEC) := by
  intro m
  induction m with
  | zero => exact ⟨rfl, rfl⟩
  | succ k ih =>
    constructor
    · rw [padBytesSeq, show ((0xEC : Nat) ^^^ (0xEC ^^^ 0x11)) = 0x11 from by decide, ih.2,
        specPadBytes, List.range_succ_eq_map]
      simp only [List.map_cons, List.map_map]
      refine congrArg _ ?_
      refine List.map_congr_left ?_
      intro i _
      rcases Nat.mod_two_eq_zero_or_one i with h | h
      · have h2 : (i + 1) % 2 = 1 := by omega
        simp [h, h2, Function.comp]
      · have h2 : (i + 1) % 2 = 0 := by omega
        simp [h, h2, Function.comp]
    · rw [padBytesSeq, show ((0x11 : Nat) ^^^ (0xEC ^^^ 0x11)) = 0xEC from by decide, ih.1,
        specPadBytes, List.range_succ_eq_map]
      simp only [List.map_cons, List.map_map]
      refine congrArg _ ?_
      refine List.map_congr_left ?_
      intro i _
      rcases Nat.mod_two_eq_zero_or_one i with h | h
      · have h2 : (i + 1) % 2 = 1 := by omega
        simp [h, h2, Function.comp]
      · have h2 : (i + 1) % 2 = 0 := by omega
        simp [h, h2, Function.comp]

theorem packBytes_eq_packIdx (bb : List Nat) :
    packBytes bb = packIdx 0 (List.replicate ((bb.length + 7) / 8) 0) bb := by
  suffices h : ∀ (l : List Nat) (i : Nat) (arr : List Nat),
      (List.enumFrom i l).foldl packStep arr = packIdx i arr l by
    exact h bb 0 _
  intro l
  induction l with
  | nil => intro i arr; rfl
  | cons b rest ih =>
    intro i arr
    simp only [List.enumFrom, List.foldl_cons, packIdx]
    exact ih (i + 1) _

theorem packIdx_append : ∀ (c rest : List Nat) (i : Nat) (arr : List Nat),
    packIdx i arr (c ++ rest) = packIdx (i + c.length) (packIdx i arr c) rest := by
  intro c
  induction c with
  | nil =>
    intro rest i arr
    simp [packIdx]
  | cons b t ih =>
    intro rest i arr
    simp only [List.cons_append, packIdx, List.length_cons]
    rw [show i + (t.length + 1) = i + 1 + t.length by omega]
    exact ih rest (i + 1) (packStep arr (i, b))

theorem packIdx_within : ∀ (c : List Nat) (i a : Nat) (arr : List Nat),
    i + c.length ≤ 8 →
    packIdx i (a :: arr) c = specByteAux i a c :: arr := by
  intro c
  induction c with
  | nil => intro i a arr h; rfl
  | cons b t ih =>
    intro i a arr h
    simp only [packIdx, specByteAux, List.length_cons] at *
    have h8 : i / 8 = 0 := by omega
    rw [packStep]
    dsimp only []
    rw [h8]
    simp only [List.set_cons_zero, List.getD_cons_zero]
    exact ih (i + 1) _ arr (by omega)

theorem packIdx_shiftByte : ∀ (l : List Nat) (j a : Nat) (arr : List Nat),
    packIdx (8 + j) (a :: arr) l = a :: packIdx j arr l := by
  intro l
  induction l with
  | nil => intro j a arr; rfl
  | cons b t ih =>
    intro j a arr
    simp only [packIdx]
    have hdiv : (8 + j) / 8 = j / 8 + 1 := by omega
    have hmod : (8 + j) % 8 = j % 8 := by omega
    rw [packStep, packStep]
    dsimp only []
    rw [hdiv, hmod]
    simp only [List.set_cons_succ, List.getD_cons_succ]
    rw [show 8 + j + 1 = 8 + (j + 1) by omega]
    exact ih (j + 1) _ _

theorem packIdx_eight (l : List Nat) (a : Nat) (arr : List Nat) :
    packIdx 8 (a :: arr) l = a :: packIdx 0 arr l := by
  have h := packIdx_shiftByte l 0 a arr
  simpa using h

theorem bitChunks8_nil : bitChunks8 [] = [] := by
  rw [bitChunks8]
  simp

theorem bitChunks8_cons (l : List Nat) (h : l ≠ []) :
    bitChunks8 l = l.take 8 :: bitChunks8 (l.drop 8) := by
  rw [bitChunks8]
  simp [h]

theorem packIdx_chunks_aux : ∀ (N : Nat) (l : List Nat), l.length ≤ N →
    packIdx 0 (List.replicate ((l.length + 7) / 8) 0) l = specPackMSB l := by
  intro N
  induction N with
  | zero =>
    intro l hlen
    have h0 : l = [] := List.eq_nil_of_length_eq_zero (by omega)
    subst h0
    rw [specPackMSB, bitChunks8_nil]
    rfl
  | succ N ih =>
    intro l hlen
    by_cases h0 : l = []
    · subst h0
      rw [specPackMSB, bitChunks8_nil]
      rfl
    · have hpos : 1 ≤ l.length := List.length_pos.mpr h0
      rw [specPackMSB, bitChunks8_cons l h0, List.map_cons]
      by_cases hle : l.length ≤ 8
      · have htake : l.take 8 = l := List.take_of_length_le hle
        have hdrop : l.drop 8 = [] := List.drop_eq_nil_of_le hle
        have hL : (l.length + 7) / 8 = 1 := by omega
        rw [htake, hdrop, bitChunks8_nil, hL]
        rw [show List.replicate 1 (0 : Nat) = [0] from rfl]
        rw [packIdx_within l 0 0 [] (by omega)]
        rfl
      · have htlen : (l.take 8).length = 8 := by
          rw [List.length_take]
          omega
        have hL : (l.length + 7) / 8 = ((l.drop 8).length + 7) / 8 + 1 := by
          rw [List.length_drop]
          omega
        set a := l.take 8 with hA
        set d := l.drop 8 with hD
        have hdlen : d.length = l.length - 8 := by
          rw [hD, List.length_drop]
        have hsplit : l = a ++ d := (List.take_append_drop 8 l).symm
        rw [hL, hsplit, packIdx_append a d 0 _, List.replicate_succ]
        rw [packIdx_within a 0 0 _ (by omega), htlen]
        rw [show (0 + 8 : Nat) = 8 from rfl]
        rw [packIdx_eight]
        rw [ih d (by omega)]
        rfl

/-- Claim C4 auxiliary: the byte-packing fold of `encodeSegments` equals
chunking the bit sequence into bytes most-significant-bit first. -/
theorem packBytes_spec (bb : List Nat) : packBytes bb = specPackMSB bb := by
  rw [packBytes_eq_packIdx]
  exact packIdx_chunks_aux bb.length bb (le_refl _)

theorem packBytes_length (bb : List Nat) :
    (packBytes bb).length = (bb.length + 7) / 8 := by
  rw [packBytes]
  refine foldl_invariant _ (fun arr : List Nat => arr.length = (bb.length + 7) / 8) _ _
    (by simp) (fun a b _ ha => ?_)
  rw [packStep]
  dsimp only []
  rw [List.length_set]
  exact ha

set_option maxRecDepth 8000 in
theorem tables_pos : ∀ v : Nat, v < 41 → 1 ≤ v →
    0 < getNumDataCodewords v .LOW ∧ 0 < getNumDataCodewords v .MEDIUM ∧
    0 < getNumDataCodewords v .QUARTILE ∧ 0 < getNumDataCodewords v .HIGH := by
  decide

theorem cap_pos (v : Nat) (e : Ecc) (h1 : 1 ≤ v) (h40 : v ≤ 40) :
    0 < getNumDataCodewords v e := by
  have h := tables_pos v (by omega) h1
  cases e
  · exact h.1
  · exact h.2.1
  · exact h.2.2.1
  · exact h.2.2.2

/-- Claim C4: codeword assembly: after the segment bits, `encodeSegments`
appends `min(4, remaining)` zero terminator bits, zero bits to the next
multiple of 8, then whole pad bytes alternating 0xEC, 0x11 until the bit
length is exactly 8 times the data-codeword capacity of the chosen
version and level, and packs the bits into bytes most significant bit
first. -/
theorem c4_codeword_assembly (segs : List QrSegment) (ecl : Ecc) :
    match selectVersion segs ecl 1 40 with
    | .ok p =>
        encodeSegments segs ecl 1 40 (-1) true =
          construct p.1 (boostEclLevel true p.2 p.1 ecl)
            (packBytes (assembledBits segs p.1 (boostEclLevel true p.2 p.1 ecl))) (-1) ∧
        (let ecl2 := boostEclLevel true p.2 p.1 ecl
         let bb0 := segsBits p.1 segs
         let cap := (getNumDataCodewords p.1 ecl2 * 8).toNat
         let t := min 4 (cap - bb0.length)
         let r := (8 - (bb0.length + t) % 8) % 8
         assembledBits segs p.1 ecl2 =
             bb0 ++ List.replicate t 0 ++ List.replicate r 0 ++
               ((specPadBytes ((cap - (bb0.length + t + r)) / 8)).map
                 (fun b => msbBits b 8)).flatten ∧
           (assembledBits segs p.1 ecl2).length = cap ∧
           packBytes (assembledBits segs p.1 ecl2) =
             specPackMSB (assembledBits segs p.1 ecl2))
    | .error _ => True := by
  rcases hsel : selectVersion segs ecl 1 40 with e | p
  · exact trivial
  · obtain ⟨v, u⟩ := p
    rcases selectVersion_spec segs ecl 40 1 40 (by omega) (by omega) with ⟨hok, _⟩
    rcases hok (v, u) hsel with ⟨hv1, hv40, htot, hfitv, _⟩
    dsimp only [] at hv1 hv40 htot hfitv
    have hfit : (u : Int) ≤ getNumDataCodewords v ecl * 8 := by
      rw [fitsVersion, htot] at hfitv
      simpa using hfitv
    rcases boostEclLevel_spec u v ecl hfit with ⟨_, hcap2⟩
    constructor
    · rw [encodeSegments, if_neg (by omega), hsel]
    · dsimp only []
      set ecl2 := boostEclLevel true u v ecl with hecl2
      have hcappos : 0 < getNumDataCodewords v ecl2 := cap_pos v ecl2 hv1 hv40
      have hlen0 : (segsBits v segs).length = u := segsBits_length_of_total segs v u htot
      set bb0 := segsBits v segs with hbb0
      set cap := (getNumDataCodewords v ecl2 * 8).toNat with hcap
      have hcap8 : cap % 8 = 0 := by
        rw [hcap]
        omega
      have hule : u ≤ cap := by
        rw [hcap]
        omega
      set t := min 4 (cap - bb0.length) with ht
      set r := (8 - (bb0.length + t) % 8) % 8 with hr
      have hterm : appendBits 0 t bb0 = bb0 ++ List.replicate t 0 := by
        rw [appendBits, msbBits_zero]
      have hlen1 : (appendBits 0 t bb0).length = u + t := by
        rw [appendBits_length, hlen0]
      have hbb2 : appendBits 0 ((8 - (appendBits 0 t bb0).length % 8) % 8)
          (appendBits 0 t bb0) = bb0 ++ List.replicate t 0 ++ List.replicate r 0 := by
        rw [appendBits, msbBits_zero, hterm]
        simp [hr]
      have hlen2 : (bb0 ++ List.replicate t 0 ++ List.replicate r 0).length = u + t + r := by
        simp [hlen0]
        omega
      have hpad : (u + t + r) + 8 * ((cap - (u + t + r)) / 8) = cap := by
        rw [ht, hlen0] at *
        omega
      have hstep : assembledBits segs v ecl2 =
          bb0 ++ List.replicate t 0 ++ List.replicate r 0 ++
            ((specPadBytes ((cap - (bb0.length + t + r)) / 8)).map
              (fun b => msbBits b 8)).flatten := by
        rw [assembledBits]
        rw [← hbb0, ← hcap, ← ht, hbb2]
        rw [padLoop_eq cap ((cap - (u + t + r)) / 8) 0xEC _ (by rw [hlen2]; exact hpad)]
        rw [(padBytesSeq_spec ((cap - (u + t + r)) / 8)).1, hlen0]
      refine ⟨hstep, ?_, packBytes_spec _⟩
      rw [assembledBits]
      rw [← hbb0, ← hcap, ← ht, hbb2]
      exact padLoop_length cap ((cap - (u + t + r)) / 8) 0xEC _ (by rw [hlen2]; exact hpad)

/-- A closed instance of C4 at the numeric content 12345. -/
theorem c4_codeword_assembly_witness :
    match selectVersion [makeNumericCore ['1', '2', '3', '4', '5']] .LOW 1 40 with
    | .ok p =>
        encodeSegments [makeNumericCore ['1', '2', '3', '4', '5']] .LOW 1 40 (-1) true =
          construct p.1 (boostEclLevel true p.2 p.1 .LOW)
            (packBytes (assembledBits [makeNumericCore ['1', '2', '3', '4', '5']] p.1
              (boostEclLevel true p.2 p.1 .LOW))) (-1) ∧
        (let ecl2 := boostEclLevel true p.2 p.1 .LOW
         let bb0 := segsBits p.1 [makeNumericCore ['1', '2', '3', '4', '5']]
         let cap := (getNumDataCodewords p.1 ecl2 * 8).toNat
         let t := min 4 (cap - bb0.length)
         let r := (8 - (bb0.length + t) % 8) % 8
         assembledBits [makeNumericCore ['1', '2', '3', '4', '5']] p.1 ecl2 =
             bb0 ++ List.replicate t 0 ++ List.replicate r 0 ++
               ((specPadBytes ((cap - (bb0.length + t + r)) / 8)).map
                 (fun b => msbBits b 8)).flatten ∧
           (assembledBits [makeNumericCore ['1', '2', '3', '4', '5']] p.1 ecl2).length = cap ∧
           packBytes (assembledBits [makeNumericCore ['1', '2', '3', '4', '5']] p.1 ecl2) =
             specPackMSB (assembledBits [makeNumericCore ['1', '2', '3', '4', '5']] p.1 ecl2))
    | .error _ => True :=
  c4_codeword_assembly [makeNumericCore ['1', '2', '3', '4', '5']] .LOW

/-! ### Claim C1: machinery for the success path of an encode call -/

theorem xor_lt_256 {a b : Nat} (ha : a < 256) (hb : b < 256) : a ^^^ b < 256 := by
  have h := Nat.xor_lt_two_pow (show a < 2 ^ 8 by omega) (show b < 2 ^ 8 by omega)
  omega

theorem or_lt_256 {a b : Nat} (ha : a < 256) (hb : b < 256) : (a ||| b) < 256 := by
  have h := Nat.or_lt_two_pow (show a < 2 ^ 8 by omega) (show b < 2 ^ 8 by omega)
  omega

set_option maxRecDepth 2000 in
theorem mulLoopStep_lt : ∀ z : Nat, z < 256 →
    (z <<< 1) ^^^ ((z >>> 7) * 0x11D) < 256 := by
  decide

theorem reedSolomonMultiplyLoop_lt (x y : Nat) (hx : x < 256) :
    reedSolomonMultiplyLoop x y < 256 := by
  rw [reedSolomonMultiplyLoop]
  refine foldl_invariant _ (fun z => z < 256) _ _ (by omega) (fun a b _ ha => ?_)
  dsimp only []
  refine xor_lt_256 (mulLoopStep_lt a ha) ?_
  have hbit : (y >>> (7 - b)) &&& 1 ≤ 1 := Nat.and_le_right
  have hmul : ((y >>> (7 - b)) &&& 1) * x ≤ 1 * x := Nat.mul_le_mul_right x hbit
  omega

theorem reedSolomonMultiply_ok (x y : Nat) (hx : x < 256) (hy : y < 256) :
    reedSolomonMultiply x y = .ok (reedSolomonMultiplyLoop x y) := by
  have h1 : x >>> 8 = 0 := by
    rw [Nat.shiftRight_eq_div_pow]
    omega
  have h2 : y >>> 8 = 0 := by
    rw [Nat.shiftRight_eq_div_pow]
    omega
  rw [reedSolomonMultiply, if_neg (by omega)]

theorem rsDivisorPass_ok (root : Nat) (hroot : root < 256) :
    ∀ l : List Nat, (∀ a ∈ l, a < 256) →
      ∃ r, rsDivisorPass root l = .ok r ∧ r.length = l.length ∧ ∀ a ∈ r, a < 256
  | [] => fun _ => ⟨[], rfl, rfl, by simp⟩
  | [a] => fun h => by
    rw [rsDivisorPass, reedSolomonMultiply_ok a root (h a (by simp)) hroot]
    refine ⟨_, rfl, rfl, ?_⟩
    intro x hx
    have hx2 : x = reedSolomonMultiplyLoop a root := by simpa using hx
    subst hx2
    exact reedSolomonMultiplyLoop_lt a root (h a (by simp))
  | a :: b :: rest => fun h => by
    rw [rsDivisorPass, reedSolomonMultiply_ok a root (h a (by simp)) hroot]
    obtain ⟨tail, htail, hlen, hall⟩ :=
      rsDivisorPass_ok root hroot (b :: rest) (fun x hx => h x (by simp [hx]))
    rw [htail]
    refine ⟨_, rfl, by simp [hlen], ?_⟩
    intro x hx
    rcases List.mem_cons.mp hx with h1 | h2
    · subst h1
      exact xor_lt_256 (reedSolomonMultiplyLoop_lt a root (h a (by simp)))
        (h b (by simp))
    · exact hall x h2

theorem reedSolomonComputeDivisor_ok (degree : Nat) (h1 : 1 ≤ degree)
    (h255 : degree ≤ 255) :
    ∃ d, reedSolomonComputeDivisor degree = .ok d ∧ d.length = degree ∧
      ∀ a ∈ d, a < 256 := by
  rw [reedSolomonComputeDivisor, if_neg (by omega)]
  have hinv := foldl_invariant rsDivisorStep
    (fun st : Except EncodeErr (List Nat × Nat) => ∃ res root, st = .ok (res, root) ∧
      res.length = degree ∧ (∀ a ∈ res, a < 256) ∧ root < 256)
    (List.range degree) (.ok (List.replicate (degree - 1) 0 ++ [1], 1)) ?_ ?_
  · obtain ⟨res, root, heq, hlen, hall, _⟩ := hinv
    rw [heq]
    exact ⟨res, rfl, hlen, hall⟩
  · refine ⟨_, _, rfl, by simp; omega, ?_, by omega⟩
    intro a ha
    rcases List.mem_append.mp ha with hr | ho
    · have := List.eq_of_mem_replicate hr
      omega
    · have : a = 1 := by simpa using ho
      omega
  · intro a b _ ha
    obtain ⟨res, root, hst, hlen, hall, hroot⟩ := ha
    subst hst
    rw [rsDivisorStep]
    obtain ⟨r2, hr2, hlen2, hall2⟩ := rsDivisorPass_ok root hroot res hall
    rw [hr2, reedSolomonMultiply_ok root 2 hroot (by omega)]
    exact ⟨r2, _, rfl, by omega, hall2, reedSolomonMultiplyLoop_lt root 2 hroot⟩

theorem rsScaleLoop_ok (factor : Nat) (hf : factor < 256) :
    ∀ ds rs : List Nat, (∀ a ∈ ds, a < 256) → (∀ a ∈ rs, a < 256) →
      ∃ out, rsScaleLoop factor ds rs = .ok out ∧
        out.length = min ds.length rs.length ∧ ∀ a ∈ out, a < 256
  | [], rs => fun _ _ => ⟨[], rfl, by simp, by simp⟩
  | _ :: _, [] => fun _ _ => ⟨[], rfl, by simp, by simp⟩
  | coef :: ds, r :: rs => fun hd hr => by
    rw [rsScaleLoop, reedSolomonMultiply_ok coef factor (hd coef (by simp)) hf]
    obtain ⟨rest, hrest, hlen, hall⟩ := rsScaleLoop_ok factor hf ds rs
      (fun x hx => hd x (by simp [hx])) (fun x hx => hr x (by simp [hx]))
    rw [hrest]
    refine ⟨_, rfl, ?_, ?_⟩
    · simp only [List.length_cons, hlen]
      omega
    · intro x hx
      rcases List.mem_cons.mp hx with h1 | h2
      · subst h1
        exact xor_lt_256 (hr r (by simp))
          (reedSolomonMultiplyLoop_lt coef factor (hd coef (by simp)))
      · exact hall x h2

theorem reedSolomonComputeRemainder_ok (data divisor : List Nat)
    (hdiv : ∀ a ∈ divisor, a < 256) (hdata : ∀ b ∈ data, b < 256) :
    ∃ out, reedSolomonComputeRemainder data divisor = .ok out ∧
      out.length = divisor.length ∧ ∀ a ∈ out, a < 256 := by
  rw [reedSolomonComputeRemainder]
  refine foldl_invariant _ (fun res : Except EncodeErr (List Nat) =>
    ∃ out, res = .ok out ∧ out.length = divisor.length ∧ ∀ a ∈ out, a < 256) _ _ ?_ ?_
  · refine ⟨divisor.map (fun _ => 0), rfl, by simp, ?_⟩
    intro a ha
    rcases List.mem_map.mp ha with ⟨_, _, h0⟩
    omega
  · intro a b hb ha
    obtain ⟨result, hres, hlen, hall⟩ := ha
    subst hres
    rw [rsRemainderStep]
    have hh : result.headD 0 < 256 := by
      cases result with
      | nil => decide
      | cons c t => exact hall c (by simp)
    have hfac : b ^^^ result.headD 0 < 256 := xor_lt_256 (hdata b hb) hh
    have hrs : ∀ x ∈ result.tail ++ [0], x < 256 := by
      intro x hx
      rcases List.mem_append.mp hx with h1 | h2
      · exact hall x (List.mem_of_mem_tail h1)
      · have : x = 0 := by simpa using h2
        omega
    obtain ⟨out, hout, holen, hoall⟩ :=
      rsScaleLoop_ok _ hfac divisor (result.tail ++ [0]) hdiv hrs
    refine ⟨out, hout, ?_, hoall⟩
    simp only [List.length_append, List.length_tail, List.length_singleton] at holen
    omega

set_option maxRecDepth 8000 in
theorem tables_ecc_low : ∀ v : Nat, v < 41 → 1 ≤ v → eccTableOk v .LOW := by
  decide

set_option maxRecDepth 8000 in
theorem tables_ecc_medium : ∀ v : Nat, v < 41 → 1 ≤ v → eccTableOk v .MEDIUM := by
  decide

set_option maxRecDepth 8000 in
theorem tables_ecc_quartile : ∀ v : Nat, v < 41 → 1 ≤ v → eccTableOk v .QUARTILE := by
  decide

set_option maxRecDepth 8000 in
theorem tables_ecc_high : ∀ v : Nat, v < 41 → 1 ≤ v → eccTableOk v .HIGH := by
  decide

theorem eccTableOk_of (v : Nat) (e : Ecc) (h1 : 1 ≤ v) (h40 : v ≤ 40) :
    eccTableOk v e := by
  cases e
  · exact tables_ecc_low v (by omega) h1
  · exact tables_ecc_medium v (by omega) h1
  · exact tables_ecc_quartile v (by omega) h1
  · exact tables_ecc_high v (by omega) h1

theorem eccBlocksLoop_spec (data rsDiv : List Nat) (nb ns sbl eccLen : Nat)
    (hns : ns ≤ nb) (hecc : eccLen ≤ sbl) (hdiv : rsDiv.length = eccLen)
    (hdivB : ∀ a ∈ rsDiv, a < 256) (hdataB : ∀ b ∈ data, b < 256)
    (hdlen : data.length = nb * (sbl - eccLen) + (nb - ns)) :
    ∀ k, k ≤ nb →
      ∃ blocks pos,
        (List.range k).foldl (eccBlockStep data rsDiv ns sbl eccLen) (.ok ([], 0)) =
          .ok (blocks, pos) ∧
        blocks.length = k ∧ (∀ blk ∈ blocks, blk.length = sbl + 1) ∧
        pos = k * (sbl - eccLen) + (k - min k ns) := by
  intro k
  induction k with
  | zero =>
    intro _
    exact ⟨[], 0, rfl, rfl, by simp, by simp⟩
  | succ n ih =>
    intro hk
    obtain ⟨blocks, pos, hfold, hlen, hblk, hpos⟩ := ih (by omega)
    clear ih
    rw [List.range_succ, List.foldl_append, List.foldl_cons, List.foldl_nil, hfold]
    rw [eccBlockStep]
    dsimp only []
    subst hpos
    set S := sbl - eccLen with hS
    have hS1 : (n + 1) * S ≤ nb * S := Nat.mul_le_mul_right S (by omega)
    rw [Nat.succ_mul] at hS1
    have hdatlen : ((data.drop (n * S + (n - min n ns))).take
        (S + (if n < ns then 0 else 1))).length = S + (if n < ns then 0 else 1) := by
      rw [List.length_take, List.length_drop]
      by_cases hn : n < ns
      · have hmin : min n ns = n := Nat.min_eq_left (Nat.le_of_lt hn)
        rw [hmin]
        simp only [if_pos hn]
        omega
      · have hmin : min n ns = ns := Nat.min_eq_right (by omega)
        rw [hmin]
        simp only [if_neg hn]
        omega
    have hdatB : ∀ x ∈ (data.drop (n * S + (n - min n ns))).take
        (S + (if n < ns then 0 else 1)), x < 256 := by
      intro x hx
      exact hdataB x (List.mem_of_mem_drop (List.mem_of_mem_take hx))
    obtain ⟨ecc, heccOk, hecclen, _⟩ :=
      reedSolomonComputeRemainder_ok ((data.drop (n * S + (n - min n ns))).take
        (S + (if n < ns then 0 else 1))) rsDiv hdivB hdatB
    rw [heccOk]
    dsimp only []
    rw [hdiv] at hecclen
    refine ⟨_, _, rfl, by simp [hlen], ?_, ?_⟩
    · intro blk hmem
      rcases List.mem_append.mp hmem with h1 | h2
      · exact hblk blk h1
      · have hb2 : blk = (if n < ns
            then (data.drop (n * S + (n - min n ns))).take
              (S + (if n < ns then 0 else 1)) ++ [0]
            else (data.drop (n * S + (n - min n ns))).take
              (S + (if n < ns then 0 else 1))) ++ ecc := by
          simpa using h2
        subst hb2
        by_cases hn : n < ns
        · simp only [if_pos hn] at hdatlen ⊢
          simp only [List.length_append, List.length_singleton, hdatlen, hecclen]
          omega
        · simp only [if_neg hn] at hdatlen ⊢
          simp only [List.length_append, hdatlen, hecclen]
          omega
    · rw [hdatlen]
      rw [Nat.succ_mul]
      by_cases hn : n < ns
      · simp only [if_pos hn]
        omega
      · simp only [if_neg hn]
        omega

theorem interleaveStep_length_ne (blocks : List (List Nat)) (padIdx ns : Nat)
    (result : List Nat) (i : Nat) (h : i ≠ padIdx) :
    (interleaveStep blocks padIdx ns result i).length = result.length + blocks.length := by
  have hgen : ∀ l : List (Nat × List Nat),
      (l.filterMap (fun jb =>
        if i ≠ padIdx ∨ ns ≤ jb.1 then some (jb.2.getD i 0) else none)).length = l.length := by
    intro l
    induction l with
    | nil => rfl
    | cons a t iht =>
      rw [List.filterMap_cons, if_pos (Or.inl h)]
      simp only [List.length_cons]
      rw [iht]
  rw [interleaveStep, List.length_append, hgen, List.enum_length]

theorem interleave_count_pad (padIdx ns : Nat) :
    ∀ (bs : List (List Nat)) (k : Nat),
      ((List.enumFrom k bs).filterMap (fun jb =>
        if padIdx ≠ padIdx ∨ ns ≤ jb.1 then some (jb.2.getD padIdx 0) else none)).length =
        bs.length - min bs.length (ns - k) := by
  intro bs
  induction bs with
  | nil =>
    intro k
    simp
  | cons a t iht =>
    intro k
    rw [List.enumFrom_cons, List.filterMap_cons]
    by_cases hk : ns ≤ k
    · rw [if_pos (Or.inr hk)]
      simp only [List.length_cons]
      rw [iht (k + 1)]
      omega
    · rw [if_neg (by omega)]
      rw [iht (k + 1)]
      simp only [List.length_cons]
      omega

theorem interleaveStep_length_pad (blocks : List (List Nat)) (padIdx ns : Nat)
    (result : List Nat) :
    (interleaveStep blocks padIdx ns result padIdx).length =
      result.length + (blocks.length - min blocks.length ns) := by
  rw [interleaveStep, List.length_append, List.enum]
  rw [interleave_count_pad padIdx ns blocks 0]
  simp

theorem interleaveLoop_length (blocks : List (List Nat)) (padIdx ns : Nat) :
    ∀ m : Nat, ((List.range m).foldl (interleaveStep blocks padIdx ns) []).length =
      m * blocks.length - (if padIdx < m then min blocks.length ns else 0) := by
  intro m
  induction m with
  | zero => simp
  | succ n ih =>
    rw [List.range_succ, List.foldl_append, List.foldl_cons, List.foldl_nil]
    have hle : min blocks.length ns ≤ blocks.length := Nat.min_le_left _ _
    by_cases hn : n = padIdx
    · subst hn
      rw [interleaveStep_length_pad, ih]
      rw [if_neg (by omega), if_pos (by omega)]
      rw [Nat.succ_mul]
      omega
    · rw [interleaveStep_length_ne _ _ _ _ _ hn, ih]
      rw [Nat.succ_mul]
      by_cases hp : padIdx < n
      · rw [if_pos hp, if_pos (by omega)]
        have hmul : blocks.length ≤ n * blocks.length :=
          Nat.le_mul_of_pos_left blocks.length (by omega)
        omega
      · rw [if_neg hp, if_neg (by omega)]
        omega

theorem headD_length_of_all {L : List (List Nat)} {n c : Nat} (hlen : L.length = n)
    (h1 : 1 ≤ n) (hall : ∀ blk ∈ L, blk.length = c) : (L.headD []).length = c := by
  cases L with
  | nil =>
    simp at hlen
    omega
  | cons b t =>
    simpa using hall b (by simp)

theorem addEccAndInterleave_ok (ver : Nat) (ecl : Ecc) (data : List Nat)
    (h1 : 1 ≤ ver) (h40 : ver ≤ 40)
    (hlen : (data.length : Int) = getNumDataCodewords ver ecl)
    (hbytes : ∀ b ∈ data, b < 256) :
    ∃ out, addEccAndInterleave ver ecl data = .ok out ∧
      out.length = getNumRawDataModules ver / 8 := by
  obtain ⟨t1, t2, t3, t4⟩ := eccTableOk_of ver ecl h1 h40
  have hlen2 : (data.length : Int) = ((getNumRawDataModules ver / 8 : Nat) : Int) -
      (((eccCodewordsPerBlock ecl ver).toNat * (numEccBlocks ecl ver).toNat : Nat) : Int) := by
    rw [hlen, getNumDataCodewords]
    have he := Int.toNat_of_nonneg (show 0 ≤ eccCodewordsPerBlock ecl ver by omega)
    have hn := Int.toNat_of_nonneg (show 0 ≤ numEccBlocks ecl ver by omega)
    push_cast
    rw [he, hn]
  rw [addEccAndInterleave, if_neg (not_ne_iff.mpr hlen)]
  dsimp only []
  set nb := (numEccBlocks ecl ver).toNat with hnbdef
  set eccLen := (eccCodewordsPerBlock ecl ver).toNat with heccdef
  set rawC := getNumRawDataModules ver / 8 with hrawdef
  set ns := nb - rawC % nb with hnsdef
  set sbl := rawC / nb with hsbldef
  have hnb1 : 1 ≤ nb := by omega
  have hecc1 : 1 ≤ eccLen := by omega
  have hecc255 : eccLen ≤ 255 := t4
  have heccsbl : eccLen ≤ sbl := t3
  have hmod : rawC % nb < nb := Nat.mod_lt _ (by omega)
  have hdm := Nat.div_add_mod rawC nb
  rw [← hsbldef] at hdm
  have hmulsplit : nb * (sbl - eccLen) + nb * eccLen = nb * sbl := by
    rw [← Nat.mul_add]
    congr 1
    omega
  have hcomm : eccLen * nb = nb * eccLen := Nat.mul_comm _ _
  have hdlen : data.length = nb * (sbl - eccLen) + (nb - ns) := by omega
  have hns : ns ≤ nb := by omega
  obtain ⟨rsDiv, hdivOk, hdivLen, hdivB⟩ :=
    reedSolomonComputeDivisor_ok eccLen hecc1 hecc255
  rw [hdivOk]
  dsimp only []
  obtain ⟨blocks, pos, hfold, hblen, hball, _⟩ :=
    eccBlocksLoop_spec data rsDiv nb ns sbl eccLen hns heccsbl hdivLen hdivB hbytes
      hdlen nb (le_refl nb)
  rw [hfold]
  dsimp only []
  have hhead : (blocks.headD []).length = sbl + 1 :=
    headD_length_of_all hblen hnb1 hball
  have hcomm2 : sbl * nb = nb * sbl := Nat.mul_comm _ _
  refine ⟨_, rfl, ?_⟩
  rw [hhead, interleaveLoop_length, hblen]
  rw [if_pos (by omega), Nat.min_eq_right hns, Nat.succ_mul]
  omega

theorem baseMatrix_ok (version : Nat) (ecl : Ecc) (data : List Nat)
    (h1 : 1 ≤ version) (h40 : version ≤ 40)
    (hlen : (data.length : Int) = getNumDataCodewords version ecl)
    (hbytes : ∀ b ∈ data, b < 256) :
    ∃ g, baseMatrix version ecl data = .ok g ∧ g.wf (version * 4 + 17) := by
  obtain ⟨out, hout, houtlen⟩ :=
    addEccAndInterleave_ok version ecl data h1 h40 hlen hbytes
  rw [baseMatrix]
  rw [hout]
  have hwf0 : (drawFunctionPatterns (version * 4 + 17) version ecl
      (initialGrid (version * 4 + 17))).wf (version * 4 + 17) :=
    wf_drawFunctionPatterns _ _ _ (wf_initialGrid _)
  rcases hdc : drawCodewords (version * 4 + 17) version out
      (drawFunctionPatterns (version * 4 + 17) version ecl
        (initialGrid (version * 4 + 17))) with e | g2
  · rw [drawCodewords, if_neg (by omega)] at hdc
    exact absurd hdc (by simp)
  · exact ⟨g2, hdc, wf_drawCodewords _ _ _ hwf0 hdc⟩

theorem foldl_acc_le {α β : Type} (f : α → β → α) (m : α → Int) (c : Int) :
    ∀ (l : List β) (init : α), (∀ a b, b ∈ l → m (f a b) ≤ m a + c) →
      m (l.foldl f init) ≤ m init + l.length * c := by
  intro l
  induction l with
  | nil =>
    intro init _
    simp
  | cons x xs ih =>
    intro init hstep
    rw [List.foldl_cons]
    have h1 := ih (f init x) (fun a b hb => hstep a b (by simp [hb]))
    have h2 := hstep init x (by simp)
    simp only [List.length_cons]
    push_cast at h1 ⊢
    linarith

theorem foldl_acc_le_nat {α β : Type} (f : α → β → α) (m : α → Nat) (c : Nat) :
    ∀ (l : List β) (init : α), (∀ a b, b ∈ l → m (f a b) ≤ m a + c) →
      m (l.foldl f init) ≤ m init + l.length * c := by
  intro l
  induction l with
  | nil =>
    intro init _
    simp
  | cons x xs ih =>
    intro init hstep
    rw [List.foldl_cons]
    have h1 := ih (f init x) (fun a b hb => hstep a b (by simp [hb]))
    have h2 := hstep init x (by simp)
    simp only [List.length_cons]
    rw [Nat.succ_mul]
    omega

theorem finderPenaltyCountPatterns_le (h : List Nat) :
    finderPenaltyCountPatterns h ≤ 2 := by
  rw [finderPenaltyCountPatterns]
  split <;> split <;> omega

theorem finderPenaltyTerminateAndCount_le (size : Nat) (rc : Bool) (rl : Nat)
    (h : List Nat) : finderPenaltyTerminateAndCount size rc rl h ≤ 2 := by
  rw [finderPenaltyTerminateAndCount]
  exact finderPenaltyCountPatterns_le _

theorem lineStep_acc_le (size : Nat) (st : RunScan) (c : Bool) :
    (lineStep size st c).acc ≤ st.acc + 80 := by
  rw [lineStep]
  by_cases hc : c = st.runColor
  · rw [if_pos hc]
    dsimp only []
    split_ifs <;> try simp only [PENALTY_N1]
    all_goals omega
  · rw [if_neg hc]
    split_ifs with hrc
    · change st.acc + (finderPenaltyCountPatterns
        (finderPenaltyAddHistory size st.runLen st.history) : Int) * PENALTY_N3 ≤
        st.acc + 80
      have := finderPenaltyCountPatterns_le
        (finderPenaltyAddHistory size st.runLen st.history)
      simp only [PENALTY_N3]
      omega
    · change st.acc ≤ st.acc + 80
      omega

theorem linePenalty_le (size : Nat) (cell : Nat → Bool) :
    linePenalty size cell ≤ 80 * (size : Int) + 80 := by
  rw [linePenalty]
  set F := (List.range size).foldl (fun st idx => lineStep size st (cell idx))
    { runColor := false, runLen := 0, history := [0, 0, 0, 0, 0, 0, 0], acc := 0 } with hF
  have hfold := foldl_acc_le (fun st idx => lineStep size st (cell idx))
    (fun st : RunScan => st.acc) 80 (List.range size)
    { runColor := false, runLen := 0, history := [0, 0, 0, 0, 0, 0, 0], acc := 0 }
    (fun a b _ => lineStep_acc_le size a (cell b))
  rw [← hF] at hfold
  simp only [List.length_range] at hfold
  have hterm := finderPenaltyTerminateAndCount_le size F.runColor F.runLen F.history
  simp only [PENALTY_N3]
  omega

theorem darkRow_le (row : List Bool) : ∀ d : Nat,
    row.foldl (fun s c => s + if c then 1 else 0) d ≤ d + row.length := by
  induction row with
  | nil =>
    intro d
    simp
  | cons x xs ih =>
    intro d
    rw [List.foldl_cons]
    have h1 := ih (d + if x then 1 else 0)
    have hx : (if x then 1 else 0) ≤ 1 := by split <;> omega
    simp only [List.length_cons]
    omega

theorem darkCount_le {modules : List (List Bool)} {n : Nat} (h : dims modules n) :
    darkCount modules ≤ n * n := by
  rw [darkCount]
  obtain ⟨hlen, hall⟩ := h
  refine le_trans (foldl_acc_le_nat _ (fun d : Nat => d) n modules 0
    (fun a b hb => ?_)) ?_
  · have h2 := darkRow_le b a
    rw [hall b hb] at h2
    exact h2
  · simp [hlen]

theorem rule4Term_le {modules : List (List Bool)} {size : Nat} (h : dims modules size)
    (hpos : 0 < size) : rule4Term size modules ≤ 100 := by
  rw [rule4Term]
  have hd : darkCount modules ≤ size * size := darkCount_le h
  set t := size * size with ht
  have htpos : 0 < t := by
    rw [ht]
    exact Nat.mul_pos hpos hpos
  have hq : ((20 * (darkCount modules : Int) - 10 * ((t : Nat) : Int)).natAbs + t - 1) / t
      ≤ 10 := by
    have hup : (20 * (darkCount modules : Int) - 10 * ((t : Nat) : Int)).natAbs + t - 1
        ≤ 10 * t + (t - 1) := by omega
    have h2 : ((20 * (darkCount modules : Int) - 10 * ((t : Nat) : Int)).natAbs + t - 1) / t
        ≤ (10 * t + (t - 1)) / t := Nat.div_le_div_right hup
    have h3 : (10 * t + (t - 1)) / t = 10 := by
      rw [Nat.mul_comm 10 t, Nat.mul_add_div htpos, Nat.div_eq_of_lt (by omega)]
    omega
  simp only [PENALTY_N4]
  omega

theorem getPenaltyScore_lt {modules : List (List Bool)} {size : Nat}
    (h : dims modules size) (hpos : 0 < size) (hsize : size ≤ 177) :
    getPenaltyScore size modules < 1000000000 := by
  rw [getPenaltyScore]
  dsimp only []
  refine (show ∀ R C B r4 : Int, R ≤ 2520480 → C ≤ 2520480 → B ≤ 93456 → r4 ≤ 100 →
      R + C + B + r4 < 1000000000 from fun R C B r4 hR hC hB hr4 => by omega)
    _ _ _ _ ?_ ?_ ?_ ?_
  · refine le_trans (foldl_acc_le _ (fun z : Int => z) 14240 _ _ (fun a b _ => ?_)) ?_
    · dsimp only []
      have := linePenalty_le size (fun x => getAt modules x b)
      omega
    · simp only [List.length_range]
      omega
  · refine le_trans (foldl_acc_le _ (fun z : Int => z) 14240 _ _ (fun a b _ => ?_)) ?_
    · dsimp only []
      have := linePenalty_le size (fun y => getAt modules b y)
      omega
    · simp only [List.length_range]
      omega
  · refine le_trans (foldl_acc_le _ (fun z : Int => z) 531 _ _ (fun a b _ => ?_)) ?_
    · refine le_trans (foldl_acc_le _ (fun z : Int => z) 3 _ _ (fun a2 b2 _ => ?_)) ?_
      · dsimp only []
        split_ifs <;> try simp only [PENALTY_N2]
        all_goals omega
      · simp only [List.length_range]
        omega
    · simp only [List.length_range]
      omega
  · exact rule4Term_le h hpos

theorem searchPens_all_lt (pen : List (List Bool) → Int) (size : Nat) (ecl : Ecc)
    (g : Grid) (hwf : g.wf size)
    (hpen : ∀ M, dims M size → pen M < 1000000000) :
    ∀ k : Nat, ((List.range k).foldl (searchPensStep pen size ecl) (g, [])).1.wf size ∧
      ∀ p ∈ ((List.range k).foldl (searchPensStep pen size ecl) (g, [])).2,
        p < 1000000000 := by
  intro k
  induction k with
  | zero =>
    exact ⟨hwf, by simp⟩
  | succ n ih =>
    obtain ⟨ihwf, ihall⟩ := ih
    rw [List.range_succ, List.foldl_append, List.foldl_cons, List.foldl_nil]
    set B := (List.range n).foldl (searchPensStep pen size ecl) (g, []) with hB
    rw [searchPensStep]
    dsimp only []
    constructor
    · exact wf_applyMaskGrid _ _ (wf_drawFormatBits _ _ _ (wf_applyMaskGrid _ _ ihwf))
    · intro p hp
      rcases List.mem_append.mp hp with h1 | h2
      · exact ihall p h1
      · have hp2 : p = pen (drawFormatBits size ecl n (applyMaskGrid size n B.1)).modules := by
          simpa using h2
        subst hp2
        exact hpen _ (wf_drawFormatBits _ _ _ (wf_applyMaskGrid _ _ ihwf)).1

theorem constructWith_ok_exists (pen : List (List Bool) → Int) (version : Nat)
    (ecl : Ecc) (data : List Nat) (msk : Int) (g : Grid)
    (h1 : 1 ≤ version) (h40 : version ≤ 40) (hm1 : -1 ≤ msk) (hm7 : msk ≤ 7)
    (hbase : baseMatrix version ecl data = .ok g) (hwf : g.wf (version * 4 + 17))
    (hpen : ∀ M, dims M (version * 4 + 17) → pen M < 1000000000) :
    ∃ s, constructWith pen version ecl data msk = .ok s := by
  rw [constructWith, if_neg (by omega), if_neg (by omega), hbase]
  dsimp only []
  by_cases hmsk : msk = -1
  · rw [if_pos hmsk]
    obtain ⟨_, hlen8, hbr⟩ := maskSearch_invariant pen (version * 4 + 17) ecl g 8
    obtain ⟨_, hall⟩ := searchPens_all_lt pen (version * 4 + 17) ecl g hwf hpen 8
    rw [maskSearch_eq_fold]
    rcases hbr with ⟨hmneg, hpenv, hge⟩ | ⟨h0, h8, _, _, _, _⟩
    · exfalso
      have hmem := getD_mem_of_lt
        (((List.range 8).foldl (searchPensStep pen (version * 4 + 17) ecl) (g, [])).2) 0
        (by omega) 0
      have hx1 := hge _ hmem
      have hx2 := hall _ hmem
      omega
    · dsimp only []
      rw [if_neg (by omega)]
      exact ⟨_, rfl⟩
  · rw [if_neg hmsk]
    dsimp only []
    rw [if_neg (by omega)]
    exact ⟨_, rfl⟩

theorem msbBits_le_one (val len : Nat) : ∀ b ∈ msbBits val len, b ≤ 1 := by
  intro b hb
  rw [msbBits] at hb
  rcases List.mem_map.mp hb with ⟨i, _, hbi⟩
  subst hbi
  exact Nat.and_le_right

theorem segsBits_le_one (version : Nat) (segs : List QrSegment)
    (hbits : ∀ seg ∈ segs, ∀ b ∈ seg.bitData, b ≤ 1) :
    ∀ b ∈ segsBits version segs, b ≤ 1 := by
  rw [segsBits]
  refine foldl_invariant _ (fun bb : List Nat => ∀ b ∈ bb, b ≤ 1) _ _ (by simp) ?_
  intro a seg hseg ha
  dsimp only []
  intro b hb
  rcases List.mem_append.mp hb with h1 | h2
  · rw [appendBits] at h1
    rcases List.mem_append.mp h1 with h3 | h4
    · rw [appendBits] at h3
      rcases List.mem_append.mp h3 with h5 | h6
      · exact ha b h5
      · exact msbBits_le_one _ _ b h6
    · exact msbBits_le_one _ _ b h4
  · exact hbits seg hseg b h2

theorem padLoop_le_one (cap : Nat) : ∀ (fuel p : Nat) (bb : List Nat),
    cap - bb.length ≤ fuel → (∀ b ∈ bb, b ≤ 1) → ∀ b ∈ padLoop p bb cap, b ≤ 1 := by
  intro fuel
  induction fuel with
  | zero =>
    intro p bb hf hbb
    by_cases hg : bb.length < cap
    · exact absurd hg (by omega)
    · rw [padLoop, if_neg hg]
      exact hbb
  | succ n ih =>
    intro p bb hf hbb
    by_cases hg : bb.length < cap
    · rw [padLoop, if_pos hg]
      refine ih _ _ ?_ ?_
      · rw [appendBits_length]
        omega
      · intro b hb
        rw [appendBits] at hb
        rcases List.mem_append.mp hb with h1 | h2
        · exact hbb b h1
        · exact msbBits_le_one _ _ b h2
    · rw [padLoop, if_neg hg]
      exact hbb

theorem assembledBits_le_one (segs : List QrSegment) (v : Nat) (ecl2 : Ecc)
    (hbits : ∀ seg ∈ segs, ∀ b ∈ seg.bitData, b ≤ 1) :
    ∀ b ∈ assembledBits segs v ecl2, b ≤ 1 := by
  rw [assembledBits]
  refine padLoop_le_one _ ((getNumDataCodewords v ecl2 * 8).toNat) _ _ (by omega) ?_
  intro b hb
  rw [appendBits] at hb
  rcases List.mem_append.mp hb with h1 | h2
  · rw [appendBits] at h1
    rcases List.mem_append.mp h1 with h3 | h4
    · exact segsBits_le_one v segs hbits b h3
    · exact msbBits_le_one _ _ b h4
  · exact msbBits_le_one _ _ b h2

theorem packBytes_lt (bb : List Nat) (hbb : ∀ b ∈ bb, b ≤ 1) :
    ∀ a ∈ packBytes bb, a < 256 := by
  rw [packBytes]
  refine foldl_invariant _ (fun arr : List Nat => ∀ a ∈ arr, a < 256) _ _ ?_ ?_
  · intro a ha
    have := List.eq_of_mem_replicate ha
    omega
  · intro arr ib hib ha
    rw [packStep]
    intro a hmem
    rcases List.mem_or_eq_of_mem_set hmem with h1 | h2
    · exact ha a h1
    · subst h2
      have hget : arr.getD (ib.1 / 8) 0 < 256 := by
        rw [List.getD_eq_getElem?_getD]
        rcases hGE : arr[ib.1 / 8]? with _ | v
        · simp only [hGE, Option.getD_none]
          omega
        · simp only [hGE, Option.getD_some]
          exact ha v (List.getElem?_mem hGE)
      have hb2 : ib.2 ≤ 1 := by
        have hmem2 : ib.2 ∈ bb := by
          have hmap := List.mem_map_of_mem Prod.snd hib
          rw [List.enum_map_snd] at hmap
          exact hmap
        exact hbb _ hmem2
      have hsh : ib.2 <<< (7 - ib.1 % 8) < 256 := by
        rw [Nat.shiftLeft_eq]
        have hp : 2 ^ (7 - ib.1 % 8) ≤ 2 ^ 7 := Nat.pow_le_pow_right (by omega) (by omega)
        have hm := Nat.mul_le_mul hb2 hp
        omega
      exact or_lt_256 hget hsh

theorem assembledBits_length (segs : List QrSegment) (v : Nat) (ecl2 : Ecc) (u : Nat)
    (htot : getTotalBits segs v = some u)
    (hfit : (u : Int) ≤ getNumDataCodewords v ecl2 * 8)
    (hcappos : 0 < getNumDataCodewords v ecl2) :
    (assembledBits segs v ecl2).length = (getNumDataCodewords v ecl2 * 8).toNat := by
  have hlen0 : (segsBits v segs).length = u := segsBits_length_of_total segs v u htot
  set bb0 := segsBits v segs with hbb0
  set cap := (getNumDataCodewords v ecl2 * 8).toNat with hcap
  have hcap8 : cap % 8 = 0 := by
    rw [hcap]
    omega
  have hule : u ≤ cap := by
    rw [hcap]
    omega
  set t := min 4 (cap - bb0.length) with ht
  set r := (8 - (bb0.length + t) % 8) % 8 with hr
  have hterm : appendBits 0 t bb0 = bb0 ++ List.replicate t 0 := by
    rw [appendBits, msbBits_zero]
  have hbb2 : appendBits 0 ((8 - (appendBits 0 t bb0).length % 8) % 8)
      (appendBits 0 t bb0) = bb0 ++ List.replicate t 0 ++ List.replicate r 0 := by
    rw [appendBits, msbBits_zero, hterm]
    simp [hr]
  have hlen2 : (bb0 ++ List.replicate t 0 ++ List.replicate r 0).length = u + t + r := by
    simp [hlen0]
    omega
  have hpad : (u + t + r) + 8 * ((cap - (u + t + r)) / 8) = cap := by
    rw [ht, hlen0] at *
    omega
  rw [assembledBits]
  rw [← hbb0, ← hcap, ← ht, hbb2]
  exact padLoop_length cap ((cap - (u + t + r)) / 8) 0xEC _ (by rw [hlen2]; exact hpad)

theorem boostEclLevel_false_eq (u v : Nat) (ecl : Ecc) :
    boostEclLevel false u v ecl = ecl := rfl

/-! ### Claim C1: version selection, symbol size, and the DataTooLong
failure mode -/

/-- Claim C1: with the default search bounds 1..40, `encodeSegments`
chooses the smallest version whose data capacity in bits at the requested
level holds the total segment bits: on success the symbol version is the
least fitting version in 1..40 and the symbol size is `4 * version + 17`;
when no version up to 40 fits, the call fails with `DataTooLong` (and with
that error only) and returns no symbol.  The segment payloads are
quantified over bit lists (every entry 0 or 1), the invariant every
`QrSegment.make` constructor establishes; for junk payloads outside that
domain the byte-range guard of `reedSolomonMultiply` can also fail an
otherwise fitting encode. -/
theorem c1_version_selection (segs : List QrSegment) (ecl : Ecc) (mask : Int)
    (boost : Bool) (hm1 : -1 ≤ mask) (hm7 : mask ≤ 7)
    (hbits : ∀ seg ∈ segs, ∀ b ∈ seg.bitData, b ≤ 1) :
    match encodeSegments segs ecl 1 40 mask boost with
    | .ok s =>
        1 ≤ s.version ∧ s.version ≤ 40 ∧ fitsVersion segs ecl s.version = true ∧
        (∀ w, 1 ≤ w → w < s.version → fitsVersion segs ecl w = false) ∧
        s.size = 4 * s.version + 17
    | .error e =>
        e = .DataTooLong ∧ ∀ w, 1 ≤ w → w ≤ 40 → fitsVersion segs ecl w = false := by
  rw [encodeSegments, if_neg (by omega)]
  rcases hsel : selectVersion segs ecl 1 40 with e | p
  · dsimp only []
    obtain ⟨_, herr⟩ := selectVersion_spec segs ecl 40 1 40 (by omega) (by omega)
    exact herr e hsel
  · obtain ⟨v, u⟩ := p
    dsimp only []
    obtain ⟨hok, _⟩ := selectVersion_spec segs ecl 40 1 40 (by omega) (by omega)
    obtain ⟨hv1, hv40, htot, hfitv, hmin⟩ := hok (v, u) hsel
    dsimp only [] at hv1 hv40 htot hfitv hmin
    have hfit : (u : Int) ≤ getNumDataCodewords v ecl * 8 := by
      rw [fitsVersion, htot] at hfitv
      simpa using hfitv
    have hfit2 : (u : Int) ≤ getNumDataCodewords v (boostEclLevel boost u v ecl) * 8 := by
      cases boost
      · rw [boostEclLevel_false_eq]
        exact hfit
      · exact (boostEclLevel_spec u v ecl hfit).2
    set ecl2 := boostEclLevel boost u v ecl with hecl2
    have hcappos : 0 < getNumDataCodewords v ecl2 := cap_pos v ecl2 hv1 hv40
    have hasm : (assembledBits segs v ecl2).length =
        (getNumDataCodewords v ecl2 * 8).toNat :=
      assembledBits_length segs v ecl2 u htot hfit2 hcappos
    have hdata : ((packBytes (assembledBits segs v ecl2)).length : Int) =
        getNumDataCodewords v ecl2 := by
      rw [packBytes_length, hasm]
      omega
    obtain ⟨g, hbase, hwf⟩ := baseMatrix_ok v ecl2 _ hv1 hv40 hdata
      (packBytes_lt _ (assembledBits_le_one segs v ecl2 hbits))
    have hpen : ∀ M, dims M (v * 4 + 17) →
        getPenaltyScore (v * 4 + 17) M < 1000000000 :=
      fun M hM => getPenaltyScore_lt hM (by omega) (by omega)
    obtain ⟨s, hs⟩ := constructWith_ok_exists (getPenaltyScore (v * 4 + 17)) v ecl2 _
      mask g hv1 hv40 hm1 hm7 hbase hwf hpen
    rw [construct, hs]
    dsimp only []
    obtain ⟨_, _, _, g2, hbase2, hrest⟩ := constructWith_ok_inversion _ _ _ _ _ _ hs
    have hsv : s.version = v ∧ s.size = v * 4 + 17 := by
      by_cases hmsk : mask = -1
      · rw [if_pos hmsk] at hrest
        dsimp only [] at hrest
        rw [hrest.2]
        exact ⟨rfl, rfl⟩
      · rw [if_neg hmsk] at hrest
        dsimp only [] at hrest
        rw [hrest.2]
        exact ⟨rfl, rfl⟩
    refine ⟨by omega, by omega, ?_, ?_, by omega⟩
    · rw [hsv.1]
      exact hfitv
    · intro w hw1 hw2
      rw [hsv.1] at hw2
      exact hmin w hw1 hw2

/-- A closed instance of C1 at the numeric content 12345 with the default
mask and boost arguments. -/
theorem c1_version_selection_witness :
    (-1 : Int) ≤ -1 ∧ (-1 : Int) ≤ 7 ∧
    (∀ seg ∈ [makeNumericCore ['1', '2', '3', '4', '5']], ∀ b ∈ seg.bitData, b ≤ 1) ∧
    (match encodeSegments [makeNumericCore ['1', '2', '3', '4', '5']] .LOW 1 40
        (-1) true with
     | .ok s =>
         1 ≤ s.version ∧ s.version ≤ 40 ∧
         fitsVersion [makeNumericCore ['1', '2', '3', '4', '5']] .LOW s.version = true ∧
         (∀ w, 1 ≤ w → w < s.version →
           fitsVersion [makeNumericCore ['1', '2', '3', '4', '5']] .LOW w = false) ∧
         s.size = 4 * s.version + 17
     | .error e =>
         e = .DataTooLong ∧ ∀ w, 1 ≤ w → w ≤ 40 →
           fitsVersion [makeNumericCore ['1', '2', '3', '4', '5']] .LOW w = false) :=
  ⟨by decide, by decide, by decide,
    c1_version_selection [makeNumericCore ['1', '2', '3', '4', '5']] .LOW (-1) true
      (by decide) (by decide) (by decide)⟩

end TrustVault

